import Mathlib

/-!
Shallow embedding of the ICPC contest-management program (src/main.cpp):
data model (`ProblemStatus`, `Team`), the standings comparator
(`TeamComparator`), and the operations of `ICPCManagement`
(team registration, submission ingestion, flush, freeze, scroll, queries),
followed by theorems about the embedded definitions.
C++ machine integers stay well inside 64-bit ranges for all inputs the
program processes, so they are modelled as `Int`/`Nat`.
-/

/-- One entry of a team's submission log: `SubmissionRecord` in the source. -/
structure SubmissionRecord where
  problem : Char
  status : String
  time : Int
deriving DecidableEq, Repr

/-- Per-team, per-problem bookkeeping: `ProblemStatus` in the source. -/
structure ProblemStatus where
  wrong_before : Nat
  solved : Bool
  solved_time : Int
  submissions_after_freeze : Nat
  is_frozen : Bool
  freeze_time : Int
deriving DecidableEq, Repr

/-- The member-initializer state of a freshly constructed `ProblemStatus`. -/
def ProblemStatus.init : ProblemStatus :=
  { wrong_before := 0, solved := false, solved_time := -1,
    submissions_after_freeze := 0, is_frozen := false, freeze_time := -1 }

instance : Inhabited ProblemStatus := ⟨ProblemStatus.init⟩

/-- A registered team: `Team` in the source. -/
structure Team where
  name : String
  problems : List ProblemStatus
  submissions : List SubmissionRecord
  penalty_time : Int
  solved_count : Nat
deriving DecidableEq, Repr

/-- A problem counts toward the visible standings iff it is solved and not
frozen: the condition `status.solved && !status.is_frozen` of the source. -/
def solvedVisible (ps : ProblemStatus) : Bool :=
  ps.solved && !ps.is_frozen

/-- The penalty contribution of one solved problem:
`20LL * status.wrong_before + status.solved_time`. -/
def penTerm (ps : ProblemStatus) : Int :=
  20 * (ps.wrong_before : Int) + ps.solved_time

/-- The solved-problem count recomputed from the problem statuses
(the `solved_count` accumulation of `Team::calculate_ranking`). -/
def Team.computeSolvedCount (t : Team) : Nat :=
  (t.problems.filter solvedVisible).length

/-- The penalty recomputed from the problem statuses
(the `penalty_time` accumulation of `Team::calculate_ranking`). -/
def Team.computePenalty (t : Team) : Int :=
  ((t.problems.filter solvedVisible).map penTerm).sum

/-- `Team::calculate_ranking`: overwrite the stored derived fields with the
values recomputed from `problems`. -/
def Team.calculate_ranking (t : Team) : Team :=
  { t with solved_count := t.computeSolvedCount, penalty_time := t.computePenalty }

/-- The stored derived fields agree with the recomputation. -/
def Team.recomputed (t : Team) : Prop :=
  t.solved_count = t.computeSolvedCount ∧ t.penalty_time = t.computePenalty

instance (t : Team) : Decidable t.recomputed := by
  unfold Team.recomputed; infer_instance

/-- Insert a value into a descending-sorted list of times. -/
def insertDesc (x : Int) : List Int → List Int
  | [] => [x]
  | y :: ys => if x ≥ y then x :: y :: ys else y :: insertDesc x ys

/-- Sort a list of times in descending order, as
`sort(times.rbegin(), times.rend())` does in `Team::get_solved_times`. -/
def sortDesc : List Int → List Int
  | [] => []
  | x :: xs => insertDesc x (sortDesc xs)

/-- `Team::get_solved_times`: the solved-and-visible problems' solve times,
sorted in descending order. -/
def Team.get_solved_times (t : Team) : List Int :=
  sortDesc ((t.problems.filter solvedVisible).map (fun ps => ps.solved_time))

/-- The element-by-element comparison loop of `TeamComparator`: the first
index (up to the shorter length) where the two time lists differ decides,
`none` when no such index exists. -/
def timesBefore : List Int → List Int → Option Bool
  | x :: xs, y :: ys => if x ≠ y then some (decide (x < y)) else timesBefore xs ys
  | _, _ => none

/-- `TeamComparator::operator()`: solved count descending, then penalty
ascending, then descending-sorted solve-time lists compared element-by-element
(smaller first), then name ascending. -/
def TeamComparator (a b : Team) : Bool :=
  if a.solved_count ≠ b.solved_count then decide (a.solved_count > b.solved_count)
  else if a.penalty_time ≠ b.penalty_time then decide (a.penalty_time < b.penalty_time)
  else
    match timesBefore a.get_solved_times b.get_solved_times with
    | some r => r
    | none => decide (a.name < b.name)

/-- Insert a team into a list kept sorted by `TeamComparator`. -/
def insertTeam (t : Team) : List Team → List Team
  | [] => [t]
  | u :: us => if TeamComparator t u then t :: u :: us else u :: insertTeam t us

/-- The iteration order of a `std::set<Team*, TeamComparator>` holding the
given teams: the list sorted by `TeamComparator`. -/
def sortTeams : List Team → List Team
  | [] => []
  | t :: ts => insertTeam t (sortTeams ts)

/-- `teams.find(team_name)`: the first (unique, names being distinct) team
with the given name. -/
def lookupTeam (ts : List Team) (n : String) : Option Team :=
  ts.find? (fun t => t.name == n)

/-- Mutation through the pointer obtained from `teams.find`: rewrite the
first team carrying the given name. -/
def updateFirstTeam (ts : List Team) (n : String) (f : Team → Team) : List Team :=
  match ts with
  | [] => []
  | t :: rest => if t.name == n then f t :: rest else t :: updateFirstTeam rest n f

/-- `std::vector::resize`: truncate or pad with default-constructed
`ProblemStatus` values to reach the requested length. -/
def resizeProblems (l : List ProblemStatus) (n : Nat) : List ProblemStatus :=
  l.take n ++ List.replicate (n - l.length) ProblemStatus.init

/-- A rank-change record emitted during SCROLL: the
`tuple<string, string, int, long long>` of the source. -/
structure ChangeEvent where
  team1 : String
  team2 : String
  solved : Nat
  penalty : Int
deriving DecidableEq, Repr

/-- The mutable state of class `ICPCManagement`.  The C++ `teams` map and
`team_list` vector alias the same `Team` objects; the embedding keeps the
single authoritative `team_list` (in registration order, names unique) and
performs map lookups by name.  `last_flushed_ranking` is kept as the ranked
list of team names captured at the flush. -/
structure ICPCManagement where
  team_list : List Team
  competition_started : Bool
  competition_ended : Bool
  duration_time : Int
  problem_count : Nat
  is_frozen : Bool
  freeze_time : Int
  scoreboard_flushed : Bool
  last_flushed_ranking : List String
deriving DecidableEq, Repr

/-- The state of the default-constructed `ICPCManagement`. -/
def ICPCManagement.init : ICPCManagement :=
  { team_list := [], competition_started := false, competition_ended := false,
    duration_time := 0, problem_count := 0, is_frozen := false,
    freeze_time := -1, scoreboard_flushed := false, last_flushed_ranking := [] }

/-- `ICPCManagement::add_team`.  Returns the new state and the printed
lines. -/
def ICPCManagement.add_team (m : ICPCManagement) (team_name : String) :
    ICPCManagement × List String :=
  if m.competition_started then
    (m, ["[Error]Add failed: competition has started."])
  else if (lookupTeam m.team_list team_name).isSome then
    (m, ["[Error]Add failed: duplicated team name."])
  else
    ({ m with team_list := m.team_list ++
        [{ name := team_name,
           problems := List.replicate m.problem_count ProblemStatus.init,
           submissions := [], penalty_time := 0, solved_count := 0 }] },
     ["[Info]Add successfully."])

/-- `ICPCManagement::start_competition`. -/
def ICPCManagement.start_competition (m : ICPCManagement)
    (duration : Int) (problems : Nat) : ICPCManagement × List String :=
  if m.competition_started then
    (m, ["[Error]Start failed: competition has started."])
  else
    ({ m with
        duration_time := duration
        problem_count := problems
        competition_started := true
        team_list := m.team_list.map
          (fun t => { t with problems := resizeProblems t.problems problems }) },
     ["[Info]Competition starts."])

/-- The per-status mutation of `ICPCManagement::submit` (the body after the
log append): frozen-and-unsolved submissions are deferred, otherwise a first
acceptance solves and a non-acceptance on an unsolved problem counts a
wrong attempt. -/
def submitStatus (frz : Bool) (status : String) (time : Int)
    (ps : ProblemStatus) : ProblemStatus :=
  if frz ∧ ps.solved = false then
    let ps₁ := { ps with
      submissions_after_freeze := ps.submissions_after_freeze + 1 }
    if ps₁.is_frozen = false then
      { ps₁ with is_frozen := true, freeze_time := time }
    else ps₁
  else if frz = false then
    if status = "Accepted" ∧ ps.solved = false then
      { ps with solved := true, solved_time := time }
    else if status ≠ "Accepted" ∧ ps.solved = false then
      { ps with wrong_before := ps.wrong_before + 1 }
    else ps
  else ps

/-- `ICPCManagement::submit`.  The problem letter is the first character of
the problem token; its index is `prob_char - 'A'`.  The function prints
nothing on any path. -/
def ICPCManagement.submit (m : ICPCManagement) (prob_char : Char)
    (team_name : String) (status : String) (time : Int) :
    ICPCManagement × List String :=
  if ¬ m.competition_started ∨ m.competition_ended then (m, [])
  else if (lookupTeam m.team_list team_name).isNone then (m, [])
  else
    let prob_index : Int := (prob_char.toNat : Int) - 65
    if prob_index < 0 ∨ (m.problem_count : Int) ≤ prob_index then (m, [])
    else
      let i : Nat := prob_index.toNat
      ({ m with team_list := updateFirstTeam m.team_list team_name (fun t =>
          let t' := { t with submissions :=
            t.submissions ++ [SubmissionRecord.mk prob_char status time] }
          let ps := t'.problems.getD i ProblemStatus.init
          { t' with problems :=
              t'.problems.set i (submitStatus m.is_frozen status time ps) }) }, [])

/-- `ICPCManagement::flush_scoreboard`. -/
def ICPCManagement.flush_scoreboard (m : ICPCManagement) :
    ICPCManagement × List String :=
  if ¬ m.competition_started ∨ m.competition_ended then (m, [])
  else
    let teams' := m.team_list.map Team.calculate_ranking
    ({ m with
        scoreboard_flushed := true
        team_list := teams'
        last_flushed_ranking := (sortTeams teams').map (fun t => t.name) },
     ["[Info]Flush scoreboard."])

/-- `ICPCManagement::freeze_scoreboard`.  Note: the function sets only the
global flag and flushes; it touches no per-problem `is_frozen`. -/
def ICPCManagement.freeze_scoreboard (m : ICPCManagement) :
    ICPCManagement × List String :=
  if ¬ m.competition_started ∨ m.competition_ended then (m, [])
  else if m.is_frozen then
    (m, ["[Error]Freeze failed: scoreboard has been frozen."])
  else
    let r := ICPCManagement.flush_scoreboard { m with is_frozen := true }
    (r.1, r.2 ++ ["[Info]Freeze scoreboard."])

/-- The scoreboard cell for one problem, as printed by
`ICPCManagement::print_scoreboard`. -/
def problemCell (ps : ProblemStatus) : String :=
  if ps.is_frozen then
    " " ++ toString ps.wrong_before ++ "/" ++ toString ps.submissions_after_freeze
  else if ps.solved then
    if ps.wrong_before = 0 then " +" else " +" ++ toString ps.wrong_before
  else
    if ps.wrong_before = 0 then " ." else " -" ++ toString ps.wrong_before

/-- One line of `ICPCManagement::print_scoreboard`. -/
def scoreboardLine (t : Team) (rank : Nat) (pc : Nat) : String :=
  t.name ++ " " ++ toString rank ++ " " ++ toString t.solved_count ++ " "
    ++ toString t.penalty_time
    ++ String.join ((t.problems.take pc).map problemCell)

/-- `ICPCManagement::print_scoreboard` over a ranked list of names, reading
the named teams' live data. -/
def printScoreboard (order : List String) (teams : List Team) (pc : Nat) :
    List String :=
  order.enum.map (fun p =>
    match lookupTeam teams p.2 with
    | some t => scoreboardLine t (p.1 + 1) pc
    | none => "")

/-- The first frozen problem index of a team, scanning
`i = 0 .. problem_count-1` as the target-selection loop of
`scroll_scoreboard` does (the loop reads `problems[i]`, which stays in
bounds because every team's problem list has length `problem_count`). -/
def firstFrozenIdx : List ProblemStatus → Nat → Option Nat
  | _, 0 => none
  | [], _ + 1 => none
  | ps :: rest, pc + 1 =>
    if ps.is_frozen then some 0 else (firstFrozenIdx rest pc).map (· + 1)

/-- The target search of `scroll_scoreboard`: walk the ranking from the
lowest-ranked team upward (the list passed here is already reversed) and
return the first team owning a frozen problem together with its smallest
frozen problem index. -/
def findTargetAux (ns : List String) (teams : List Team) (pc : Nat) :
    Option (String × Nat) :=
  match ns with
  | [] => none
  | n :: rest =>
    match lookupTeam teams n with
    | none => findTargetAux rest teams pc
    | some t =>
      match firstFrozenIdx t.problems pc with
      | some i => some (n, i)
      | none => findTargetAux rest teams pc

/-- The submission-log scan of the reveal: the first logged submission for
problem `'A' + i` with verdict `"Accepted"`. -/
def firstAccepted (t : Team) (i : Nat) : Option SubmissionRecord :=
  t.submissions.find? (fun sub =>
    sub.problem == Char.ofNat (65 + i) && sub.status == "Accepted")

/-- `solved_during_freeze` of the reveal step. -/
def hasAccepted (t : Team) (i : Nat) : Bool :=
  (firstAccepted t i).isSome

/-- The reveal of one frozen problem: mark it solved at the first accepted
submission's time when one exists, then clear its `is_frozen`. -/
def revealProblem (t : Team) (i : Nat) : Team :=
  let ps := t.problems.getD i ProblemStatus.init
  let ps₁ :=
    match firstAccepted t i with
    | some sub => { ps with solved := true, solved_time := sub.time }
    | none => ps
  { t with problems := t.problems.set i { ps₁ with is_frozen := false } }

/-- One iteration of the `while (true)` loop of `scroll_scoreboard`:
`none` when no team has a frozen problem (the loop exits), otherwise the
updated teams, the re-materialized ranking, and the change event recorded
for this step (if any). -/
def scrollStep (teams : List Team) (order : List String) (pc : Nat) :
    Option (List Team × List String × Option ChangeEvent) :=
  match findTargetAux order.reverse teams pc with
  | none => none
  | some (tname, i) =>
    let solvedDuringFreeze :=
      match lookupTeam teams tname with
      | some t => hasAccepted t i
      | none => false
    let teams₁ := updateFirstTeam teams tname (fun t => revealProblem t i)
    let teams₂ := teams₁.map Team.calculate_ranking
    let newOrder := (sortTeams teams₂).map (fun t => t.name)
    let oldRank := order.indexOf tname + 1
    let newRank := newOrder.indexOf tname + 1
    let ch : Option ChangeEvent :=
      if newRank < oldRank ∧ solvedDuringFreeze = true then
        let replaced := order.getD (oldRank - 1 - (oldRank - newRank)) ""
        match lookupTeam teams₂ tname with
        | some t => some ⟨tname, replaced, t.solved_count, t.penalty_time⟩
        | none => some ⟨tname, replaced, 0, 0⟩
      else none
    some (teams₂, newOrder, ch)

/-- Total number of frozen problem statuses across all teams; each scroll
iteration clears exactly one, so this bounds the loop length. -/
def frozenTotal (teams : List Team) : Nat :=
  (teams.map (fun t => t.problems.countP (fun ps => ps.is_frozen))).sum

/-- The reveal loop of `scroll_scoreboard`, driven by a fuel bound that is
always sufficient (`frozenTotal` strictly decreases per iteration). -/
def scrollLoop : Nat → List Team → List String → Nat →
    List Team × List String × List ChangeEvent
  | 0, teams, order, _ => (teams, order, [])
  | fuel + 1, teams, order, pc =>
    match scrollStep teams order pc with
    | none => (teams, order, [])
    | some (teams', order', ch) =>
      let r := scrollLoop fuel teams' order' pc
      (r.1, r.2.1, ch.toList ++ r.2.2)

/-- `ICPCManagement::scroll_scoreboard`. -/
def ICPCManagement.scroll_scoreboard (m : ICPCManagement) :
    ICPCManagement × List String :=
  if ¬ m.competition_started ∨ m.competition_ended then (m, [])
  else if m.is_frozen = false then
    (m, ["[Error]Scroll failed: scoreboard has not been frozen."])
  else
    let fl := ICPCManagement.flush_scoreboard m
    let m₁ := fl.1
    let preBoard := printScoreboard m₁.last_flushed_ranking m₁.team_list m₁.problem_count
    let order₀ := (sortTeams m₁.team_list).map (fun t => t.name)
    let r := scrollLoop (frozenTotal m₁.team_list + 1) m₁.team_list order₀ m₁.problem_count
    let changeLines := r.2.2.map (fun c =>
      c.team1 ++ " " ++ c.team2 ++ " " ++ toString c.solved ++ " " ++ toString c.penalty)
    let finalBoard := printScoreboard r.2.1 r.1 m₁.problem_count
    ({ m₁ with team_list := r.1, is_frozen := false },
     ["[Info]Scroll scoreboard."] ++ fl.2 ++ preBoard ++ changeLines ++ finalBoard)

/-- `ICPCManagement::query_ranking`. -/
def ICPCManagement.query_ranking (m : ICPCManagement) (team_name : String) :
    ICPCManagement × List String :=
  if (lookupTeam m.team_list team_name).isNone then
    (m, ["[Error]Query ranking failed: cannot find the team."])
  else
    let warn : List String :=
      if m.is_frozen then
        ["[Warning]Scoreboard is frozen. The ranking may be inaccurate until it were scrolled."]
      else []
    let line : List String :=
      if m.scoreboard_flushed then
        match m.last_flushed_ranking.indexOf? team_name with
        | some k => ["[" ++ team_name ++ "] NOW AT RANKING [" ++ toString (k + 1) ++ "]"]
        | none => []
      else
        let sorted := (m.team_list.map (fun t => t.name)).mergeSort (fun a b => a ≤ b)
        match sorted.indexOf? team_name with
        | some k => ["[" ++ team_name ++ "] NOW AT RANKING [" ++ toString (k + 1) ++ "]"]
        | none => []
    (m, ["[Info]Complete query ranking."] ++ warn ++ line)

/-- The filter test of `ICPCManagement::query_submission`:
`problem_match && status_match`, where the filter value `"ALL"` matches
any value. -/
def submissionMatches (problem status : String) (sub : SubmissionRecord) : Bool :=
  (problem == "ALL" || Char.toString sub.problem == problem) &&
    (status == "ALL" || sub.status == status)

/-- The result-selection loop of `ICPCManagement::query_submission`: walk the
log in order and keep the last record matching both filters. -/
def querySelect (subs : List SubmissionRecord) (problem status : String) :
    Option SubmissionRecord :=
  subs.foldl (fun acc sub =>
    if submissionMatches problem status sub then some sub else acc) none

/-- `ICPCManagement::query_submission`. -/
def ICPCManagement.query_submission (m : ICPCManagement) (team_name : String)
    (problem : String) (status : String) : ICPCManagement × List String :=
  match lookupTeam m.team_list team_name with
  | none => (m, ["[Error]Query submission failed: cannot find the team."])
  | some t =>
    let tail : String :=
      match querySelect t.submissions problem status with
      | none => "Cannot find any submission."
      | some sub =>
        "[" ++ team_name ++ "] [" ++ Char.toString sub.problem ++ "] ["
          ++ sub.status ++ "] [" ++ toString sub.time ++ "]"
    (m, ["[Info]Complete query submission.", tail])

/-- `ICPCManagement::end_competition`. -/
def ICPCManagement.end_competition (m : ICPCManagement) :
    ICPCManagement × List String :=
  if ¬ m.competition_started ∨ m.competition_ended then (m, [])
  else ({ m with competition_ended := true }, ["[Info]Competition ends."])

/-- One input event, as dispatched by `main`. -/
inductive Op where
  | addteam (name : String)
  | start (duration : Int) (problems : Nat)
  | submit (prob : Char) (team : String) (status : String) (time : Int)
  | flush
  | freeze
  | scroll
  | queryRanking (team : String)
  | querySubmission (team problem status : String)
  | endComp
deriving DecidableEq, Repr

/-- Dispatch one event to the corresponding `ICPCManagement` member. -/
def step (op : Op) (m : ICPCManagement) : ICPCManagement × List String :=
  match op with
  | .addteam n => m.add_team n
  | .start d p => m.start_competition d p
  | .submit c t s time => m.submit c t s time
  | .flush => m.flush_scoreboard
  | .freeze => m.freeze_scoreboard
  | .scroll => m.scroll_scoreboard
  | .queryRanking t => m.query_ranking t
  | .querySubmission t p s => m.query_submission t p s
  | .endComp => m.end_competition

/-- Run a sequence of events from the initial state, keeping the state. -/
def runOps (ops : List Op) : ICPCManagement :=
  ops.foldl (fun m op => (step op m).1) ICPCManagement.init

/-! ### Generic list lemmas used throughout -/

/-- Writing back the element read at an index leaves the list unchanged. -/
theorem set_getD_eq {α : Type} (l : List α) (i : Nat) (d : α) (h : i < l.length) :
    l.set i (l.getD i d) = l := by
  induction l generalizing i with
  | nil => simp at h
  | cons x xs ih =>
    cases i with
    | zero => simp
    | succ j =>
      simp only [List.getD_cons_succ, List.set_cons_succ, List.cons.injEq, true_and]
      exact ih j (by simpa using h)

/-- `countP` is unchanged by an update that does not change the predicate's
value at the updated index. -/
theorem countP_set_eq {α : Type} (p : α → Bool) (l : List α) (i : Nat) (a d : α)
    (h : p a = p (l.getD i d)) : (l.set i a).countP p = l.countP p := by
  induction l generalizing i with
  | nil => simp
  | cons x xs ih =>
    cases i with
    | zero => simp only [List.getD_cons_zero] at h; simp [List.countP_cons, h]
    | succ j =>
      simp only [List.getD_cons_succ] at h
      simp [List.countP_cons, ih j h]

/-- `countP` grows by one when an update turns the predicate from false to
true at an in-bounds index. -/
theorem countP_set_succ {α : Type} (p : α → Bool) (l : List α) (i : Nat) (a d : α)
    (hi : i < l.length) (hold : p (l.getD i d) = false) (hnew : p a = true) :
    (l.set i a).countP p = l.countP p + 1 := by
  induction l generalizing i with
  | nil => simp at hi
  | cons x xs ih =>
    cases i with
    | zero =>
      simp only [List.getD_cons_zero] at hold
      simp [List.countP_cons, hold, hnew]
    | succ j =>
      simp only [List.getD_cons_succ] at hold
      have := ih j (by simpa using hi) hold
      simp [List.countP_cons, this]
      omega

/-- `filter` is unchanged by an update whose old and new element are both
rejected. -/
theorem filter_set_eq {α : Type} (p : α → Bool) (l : List α) (i : Nat) (a d : α)
    (hold : p (l.getD i d) = false) (hnew : p a = false) :
    (l.set i a).filter p = l.filter p := by
  induction l generalizing i with
  | nil => simp
  | cons x xs ih =>
    cases i with
    | zero =>
      simp only [List.getD_cons_zero] at hold
      simp [List.filter_cons, hold, hnew]
    | succ j =>
      simp only [List.getD_cons_succ] at hold
      simp [List.filter_cons, ih j hold]

/-- The sum of mapped values does not decrease when an update does not
decrease the value at the updated index. -/
theorem sum_map_set_le {α : Type} (f : α → Int) (l : List α) (i : Nat) (a d : α)
    (h : f (l.getD i d) ≤ f a) : (l.map f).sum ≤ ((l.set i a).map f).sum := by
  induction l generalizing i with
  | nil => simp
  | cons x xs ih =>
    cases i with
    | zero =>
      simp only [List.getD_cons_zero] at h
      simp only [List.set_cons_zero, List.map_cons, List.sum_cons]
      exact add_le_add_right h _
    | succ j =>
      simp only [List.getD_cons_succ] at h
      simp only [List.set_cons_succ, List.map_cons, List.sum_cons]
      exact add_le_add_left (ih j h) _

/-- Mapping a function that fixes every member is the identity. -/
theorem map_id_of_mem {α : Type} (f : α → α) (l : List α)
    (h : ∀ x ∈ l, f x = x) : l.map f = l := by
  induction l with
  | nil => rfl
  | cons x xs ih =>
    simp only [List.map_cons, List.cons.injEq]
    exact ⟨h x (by simp), ih (fun y hy => h y (List.mem_cons_of_mem x hy))⟩

/-! ### Lemmas about `lookupTeam` and `updateFirstTeam` -/

/-- A successful lookup returns a team carrying the requested name. -/
theorem lookupTeam_name {ts : List Team} {n : String} {t : Team}
    (h : lookupTeam ts n = some t) : t.name = n := by
  have := List.find?_some h
  simpa using this

/-- A successful lookup returns a member of the list. -/
theorem lookupTeam_mem {ts : List Team} {n : String} {t : Team}
    (h : lookupTeam ts n = some t) : t ∈ ts :=
  List.mem_of_find?_eq_some h

/-- A successful lookup splits the list into the part strictly before the
matching team (no member of which matches) and the part after; rewriting
through `updateFirstTeam` changes exactly the matching team. -/
theorem lookupTeam_split {ts : List Team} {n : String} {t : Team}
    (h : lookupTeam ts n = some t) :
    ∃ pre post, ts = pre ++ t :: post ∧ (∀ u ∈ pre, (u.name == n) = false) ∧
      ∀ f, updateFirstTeam ts n f = pre ++ f t :: post := by
  induction ts with
  | nil => simp [lookupTeam] at h
  | cons u us ih =>
    by_cases hu : (u.name == n) = true
    · have : u = t := by
        simp only [lookupTeam, List.find?_cons, hu] at h
        exact Option.some.inj h
      subst this
      exact ⟨[], us, by simp, by simp, fun f => by simp [updateFirstTeam, hu]⟩
    · have hu' : (u.name == n) = false := by
        cases hb : (u.name == n) with
        | false => rfl
        | true => exact absurd hb hu
      have h' : lookupTeam us n = some t := by
        simpa [lookupTeam, List.find?_cons, hu'] using h
      obtain ⟨pre, post, heq, hpre, hupd⟩ := ih h'
      refine ⟨u :: pre, post, by simp [heq], ?_, ?_⟩
      · intro v hv
        rcases List.mem_cons.mp hv with rfl | hv'
        · exact hu'
        · exact hpre v hv'
      · intro f
        simp [updateFirstTeam, hu', hupd f]

/-- Updating a name that no team carries changes nothing. -/
theorem updateFirstTeam_of_none {ts : List Team} {n : String}
    (h : lookupTeam ts n = none) (f : Team → Team) :
    updateFirstTeam ts n f = ts := by
  induction ts with
  | nil => rfl
  | cons u us ih =>
    simp only [lookupTeam, List.find?_cons] at h
    by_cases hu : (u.name == n) = true
    · simp [hu] at h
    · have hu' : (u.name == n) = false := by
        cases hb : (u.name == n) with
        | false => rfl
        | true => exact absurd hb hu
      simp only [hu'] at h
      simp [updateFirstTeam, hu', ih h]

/-- Lookup commutes with mapping a name-preserving function. -/
theorem lookupTeam_map {ts : List Team} {n : String} (f : Team → Team)
    (hf : ∀ t, (f t).name = t.name) :
    lookupTeam (ts.map f) n = (lookupTeam ts n).map f := by
  induction ts with
  | nil => rfl
  | cons u us ih =>
    simp only [lookupTeam, List.map_cons, List.find?_cons, hf u] at *
    cases hb : (u.name == n) with
    | true => simp [hb]
    | false => simpa [hb] using ih

/-- Lookup after a first-match update with a name-preserving function. -/
theorem lookupTeam_update {ts : List Team} {n₀ n : String} (f : Team → Team)
    (hf : ∀ t, (f t).name = t.name) :
    lookupTeam (updateFirstTeam ts n₀ f) n =
      if n₀ = n then (lookupTeam ts n).map f else lookupTeam ts n := by
  induction ts with
  | nil => simp [lookupTeam, updateFirstTeam]
  | cons u us ih =>
    by_cases hu : (u.name == n₀) = true
    · have hun : u.name = n₀ := by simpa using hu
      by_cases hnn : n₀ = n
      · subst hnn
        simp [updateFirstTeam, hu, lookupTeam, List.find?_cons, hf u, hun]
      · have h₁ : ((f u).name == n) = false := by
          simp [hf u, hun]
          exact hnn
        have h₂ : (u.name == n) = false := by
          simp [hun]
          exact hnn
        simp [updateFirstTeam, hu, lookupTeam, List.find?_cons, h₁, h₂, hnn, ih]
    · have hu' : (u.name == n₀) = false := by
        cases hb : (u.name == n₀) with
        | false => rfl
        | true => exact absurd hb hu
      by_cases hb : (u.name == n) = true
      · by_cases hnn : n₀ = n
        · subst hnn; simp [hb] at hu'
        · simp [updateFirstTeam, hu', lookupTeam, List.find?_cons, hb, hnn]
      · have hb' : (u.name == n) = false := by
          cases hc : (u.name == n) with
          | false => rfl
          | true => exact absurd hc hb
        have hstep : updateFirstTeam (u :: us) n₀ f = u :: updateFirstTeam us n₀ f := by
          simp [updateFirstTeam, hu']
        rw [hstep]
        simp only [lookupTeam, List.find?_cons, hb', cond_false]
        exact ih

/-- The padded-or-truncated problem vector has exactly the requested
length. -/
theorem resizeProblems_length (l : List ProblemStatus) (n : Nat) :
    (resizeProblems l n).length = n := by
  simp [resizeProblems]
  omega

/-! ### Order theory of `TeamComparator` -/

/-- Comparing a time list against itself finds no differing index. -/
theorem timesBefore_self (xs : List Int) : timesBefore xs xs = none := by
  induction xs with
  | nil => rfl
  | cons x xs ih => simp [timesBefore, ih]

/-- Swapping the arguments negates the verdict of the first differing
index. -/
theorem timesBefore_flip (xs ys : List Int) :
    timesBefore ys xs = (timesBefore xs ys).map (fun r => !r) := by
  induction xs generalizing ys with
  | nil => cases ys <;> rfl
  | cons x xs ih =>
    cases ys with
    | nil => rfl
    | cons y ys =>
      by_cases hxy : x = y
      · subst hxy
        simp [timesBefore, ih]
      · have hyx : y ≠ x := fun h => hxy h.symm
        have : (decide (y < x)) = !(decide (x < y)) := by
          rcases lt_trichotomy x y with h | h | h
          · simp [h, not_lt_of_gt h]
          · exact absurd h hxy
          · simp [h, not_lt_of_gt h]
        simp [timesBefore, hxy, hyx, this]

/-- Equal-length lists with no differing index are equal. -/
theorem timesBefore_none_eq : ∀ (xs ys : List Int), xs.length = ys.length →
    timesBefore xs ys = none → xs = ys
  | [], [], _, _ => rfl
  | [], _ :: _, hlen, _ => by simp at hlen
  | _ :: _, [], hlen, _ => by simp at hlen
  | x :: xs, y :: ys, hlen, h => by
    by_cases hxy : x = y
    · subst hxy
      simp only [timesBefore, ne_eq, not_true_eq_false, if_neg, ite_false] at h
      have := timesBefore_none_eq xs ys (by simpa using hlen) (by simpa [timesBefore] using h)
      simp [this]
    · simp [timesBefore, hxy] at h

/-- The first-differing-index comparison is transitive. -/
theorem timesBefore_trans : ∀ (xs ys zs : List Int),
    timesBefore xs ys = some true → timesBefore ys zs = some true →
    timesBefore xs zs = some true
  | [], ys, zs, h, _ => by simp [timesBefore] at h
  | _ :: _, [], zs, h, _ => by simp [timesBefore] at h
  | _ :: _, _ :: _, [], _, h => by simp [timesBefore] at h
  | x :: xs, y :: ys, z :: zs, h₁, h₂ => by
    by_cases hxy : x = y
    · subst hxy
      by_cases hyz : x = z
      · subst hyz
        simp only [timesBefore, ne_eq, not_true_eq_false, ite_false, if_neg] at h₁ h₂ ⊢
        exact timesBefore_trans xs ys zs (by simpa [timesBefore] using h₁)
          (by simpa [timesBefore] using h₂)
      · simpa [timesBefore, hyz] using h₂
    · by_cases hyz : y = z
      · subst hyz
        simpa [timesBefore, hxy] using h₁
      · simp only [timesBefore, hxy, hyz, ne_eq, not_false_eq_true, if_pos,
          Option.some.injEq, decide_eq_true_eq] at h₁ h₂
        have hxz : x < z := lt_trans h₁ h₂
        simp [timesBefore, ne_of_lt hxz, hxz]

/-- The comparator never orders a team before itself. -/
theorem TeamComparator_irrefl (a : Team) : TeamComparator a a = false := by
  simp [TeamComparator, timesBefore_self]

/-- The comparator orders two teams in at most one direction. -/
theorem TeamComparator_asymm {a b : Team} (h : TeamComparator a b = true) :
    TeamComparator b a = false := by
  unfold TeamComparator at h ⊢
  by_cases hsc : a.solved_count = b.solved_count
  · rw [hsc] at h ⊢
    simp only [ne_eq, not_true_eq_false, if_neg, ite_false] at h ⊢
    by_cases hpen : a.penalty_time = b.penalty_time
    · rw [hpen] at h ⊢
      simp only [ne_eq, not_true_eq_false, if_neg, ite_false] at h ⊢
      rw [timesBefore_flip a.get_solved_times b.get_solved_times]
      cases htb : timesBefore a.get_solved_times b.get_solved_times with
      | none =>
        rw [htb] at h
        simp only [htb, Option.map_none']
        simp only [decide_eq_true_eq] at h
        simp [not_lt_of_gt h]
      | some r =>
        rw [htb] at h
        cases r with
        | false => simp at h
        | true => simp [htb]
    · have hpen' : b.penalty_time ≠ a.penalty_time := fun hh => hpen hh.symm
      simp only [ne_eq, hpen, not_false_eq_true, if_pos, hpen', ite_true,
        decide_eq_true_eq] at h ⊢
      simp [not_lt_of_gt h]
  · have hsc' : b.solved_count ≠ a.solved_count := fun hh => hsc hh.symm
    simp only [ne_eq, hsc, not_false_eq_true, if_pos, hsc', ite_true,
      decide_eq_true_eq, gt_iff_lt] at h ⊢
    rw [decide_eq_false_iff_not]
    omega

/-- Two teams the comparator cannot separate agree on every key, the name
included. -/
theorem TeamComparator_eqv {a b : Team} (h₁ : TeamComparator a b = false)
    (h₂ : TeamComparator b a = false) :
    a.solved_count = b.solved_count ∧ a.penalty_time = b.penalty_time ∧
      timesBefore a.get_solved_times b.get_solved_times = none ∧
      a.name = b.name := by
  unfold TeamComparator at h₁ h₂
  by_cases hsc : a.solved_count = b.solved_count
  · rw [hsc] at h₁
    rw [hsc] at h₂
    simp only [ne_eq, not_true_eq_false, if_neg, ite_false] at h₁ h₂
    by_cases hpen : a.penalty_time = b.penalty_time
    · rw [hpen] at h₁
      rw [hpen] at h₂
      simp only [ne_eq, not_true_eq_false, if_neg, ite_false] at h₁ h₂
      rw [timesBefore_flip a.get_solved_times b.get_solved_times] at h₂
      cases htb : timesBefore a.get_solved_times b.get_solved_times with
      | some r =>
        rw [htb] at h₁
        rw [htb] at h₂
        cases r with
        | true => simp at h₁
        | false => simp at h₂
      | none =>
        rw [htb] at h₁
        rw [htb] at h₂
        simp only [Option.map_none', decide_eq_false_iff_not, not_lt] at h₁ h₂
        exact ⟨hsc, hpen, rfl, le_antisymm h₂ h₁⟩
    · have hpen' : b.penalty_time ≠ a.penalty_time := fun hh => hpen hh.symm
      simp only [ne_eq, hpen, not_false_eq_true, if_pos, hpen', ite_true,
        decide_eq_false_iff_not, not_lt] at h₁ h₂
      exact absurd (le_antisymm h₁ h₂) hpen'
  · have hsc' : b.solved_count ≠ a.solved_count := fun hh => hsc hh.symm
    simp only [ne_eq, hsc, not_false_eq_true, if_pos, hsc', ite_true,
      decide_eq_false_iff_not, gt_iff_lt, not_lt] at h₁ h₂
    exact absurd (le_antisymm h₁ h₂) hsc

/-- Teams with distinct names are comparable in one direction or the
other. -/
theorem TeamComparator_total {a b : Team} (h : a.name ≠ b.name) :
    TeamComparator a b = true ∨ TeamComparator b a = true := by
  cases h₁ : TeamComparator a b with
  | true => exact Or.inl rfl
  | false =>
    cases h₂ : TeamComparator b a with
    | true => exact Or.inr rfl
    | false => exact absurd (TeamComparator_eqv h₁ h₂).2.2.2 h

/-- Inserting preserves length. -/
theorem insertDesc_length (x : Int) (l : List Int) :
    (insertDesc x l).length = l.length + 1 := by
  induction l with
  | nil => rfl
  | cons y ys ih =>
    by_cases h : x ≥ y
    · simp [insertDesc, h]
    · simp [insertDesc, h, ih]

/-- Sorting preserves length. -/
theorem sortDesc_length (l : List Int) : (sortDesc l).length = l.length := by
  induction l with
  | nil => rfl
  | cons x xs ih => simp [sortDesc, insertDesc_length, ih]

/-- The solve-time list has as many entries as the recomputed solved
count. -/
theorem get_solved_times_length (t : Team) :
    t.get_solved_times.length = t.computeSolvedCount := by
  simp [Team.get_solved_times, Team.computeSolvedCount, sortDesc_length]

/-- Bool-to-disjunction characterization of the comparator, valid whenever
ties on `solved_count` force equal solve-time list lengths (true for teams
with recomputed derived fields). -/
theorem TeamComparator_eq_true_iff (a b : Team)
    (hlen : a.solved_count = b.solved_count →
      a.get_solved_times.length = b.get_solved_times.length) :
    TeamComparator a b = true ↔
      b.solved_count < a.solved_count ∨
        (a.solved_count = b.solved_count ∧ (a.penalty_time < b.penalty_time ∨
          (a.penalty_time = b.penalty_time ∧
            (timesBefore a.get_solved_times b.get_solved_times = some true ∨
              (a.get_solved_times = b.get_solved_times ∧ a.name < b.name))))) := by
  unfold TeamComparator
  by_cases hsc : a.solved_count = b.solved_count
  · rw [hsc]
    simp only [ne_eq, not_true_eq_false, if_neg, ite_false]
    by_cases hpen : a.penalty_time = b.penalty_time
    · rw [hpen]
      simp only [ne_eq, not_true_eq_false, if_neg, ite_false]
      cases htb : timesBefore a.get_solved_times b.get_solved_times with
      | some r =>
        have hne : a.get_solved_times ≠ b.get_solved_times := by
          intro hh
          rw [hh, timesBefore_self] at htb
          exact Option.noConfusion htb
        cases r with
        | true => simp [hsc, hpen, hne]
        | false => simp [hsc, hpen, hne]
      | none =>
        have heq : a.get_solved_times = b.get_solved_times :=
          timesBefore_none_eq _ _ (hlen hsc) htb
        simp [hsc, hpen, heq]
    · simp [hsc, hpen]
  · rw [if_pos hsc]
    simp only [decide_eq_true_eq, gt_iff_lt]
    constructor
    · intro h
      exact Or.inl h
    · intro h
      rcases h with h | ⟨h, _⟩
      · exact h
      · exact absurd h hsc

/-- Transitivity of the comparator on teams with recomputed derived
fields. -/
theorem TeamComparator_trans {a b c : Team}
    (ha : a.recomputed) (hb : b.recomputed) (hc : c.recomputed)
    (hab : TeamComparator a b = true) (hbc : TeamComparator b c = true) :
    TeamComparator a c = true := by
  have lab : a.solved_count = b.solved_count →
      a.get_solved_times.length = b.get_solved_times.length := by
    intro h
    rw [get_solved_times_length, get_solved_times_length, ← ha.1, ← hb.1, h]
  have lbc : b.solved_count = c.solved_count →
      b.get_solved_times.length = c.get_solved_times.length := by
    intro h
    rw [get_solved_times_length, get_solved_times_length, ← hb.1, ← hc.1, h]
  have lac : a.solved_count = c.solved_count →
      a.get_solved_times.length = c.get_solved_times.length := by
    intro h
    rw [get_solved_times_length, get_solved_times_length, ← ha.1, ← hc.1, h]
  rw [TeamComparator_eq_true_iff a b lab] at hab
  rw [TeamComparator_eq_true_iff b c lbc] at hbc
  rw [TeamComparator_eq_true_iff a c lac]
  rcases hab with hab | ⟨hsc₁, hab⟩
  · rcases hbc with hbc | ⟨hsc₂, _⟩
    · exact Or.inl (lt_trans hbc hab)
    · exact Or.inl (hsc₂ ▸ hab)
  · rcases hbc with hbc | ⟨hsc₂, hbc⟩
    · exact Or.inl (hsc₁ ▸ hbc)
    · refine Or.inr ⟨hsc₁.trans hsc₂, ?_⟩
      rcases hab with hab | ⟨hpen₁, hab⟩
      · rcases hbc with hbc | ⟨hpen₂, _⟩
        · exact Or.inl (lt_trans hab hbc)
        · exact Or.inl (hpen₂ ▸ hab)
      · rcases hbc with hbc | ⟨hpen₂, hbc⟩
        · exact Or.inl (hpen₁ ▸ hbc)
        · refine Or.inr ⟨hpen₁.trans hpen₂, ?_⟩
          rcases hab with hab | ⟨heq₁, hab⟩
          · rcases hbc with hbc | ⟨heq₂, _⟩
            · exact Or.inl (timesBefore_trans _ _ _ hab hbc)
            · exact Or.inl (heq₂ ▸ hab)
          · rcases hbc with hbc | ⟨heq₂, hbc⟩
            · exact Or.inl (heq₁ ▸ hbc)
            · exact Or.inr ⟨heq₁.trans heq₂, lt_trans hab hbc⟩

/-! ### The materialized ranking: permutation, sortedness, rank = count -/

/-- `insertTeam` inserts exactly the given team. -/
theorem insertTeam_perm (t : Team) (l : List Team) :
    List.Perm (insertTeam t l) (t :: l) := by
  induction l with
  | nil => exact List.Perm.refl _
  | cons u us ih =>
    by_cases h : TeamComparator t u = true
    · simp [insertTeam, h]
    · have h' : TeamComparator t u = false := by
        cases hb : TeamComparator t u with
        | false => rfl
        | true => exact absurd hb h
      simp only [insertTeam, h', Bool.false_eq_true, if_neg, ite_false]
      exact (ih.cons u).trans (List.Perm.swap t u us)

/-- `sortTeams` permutes its input. -/
theorem sortTeams_perm (l : List Team) : List.Perm (sortTeams l) l := by
  induction l with
  | nil => exact List.Perm.refl _
  | cons t ts ih => exact (insertTeam_perm t (sortTeams ts)).trans (ih.cons t)

/-- The output order of the ranking: no team strictly precedes (by the
comparator) a team listed before it. -/
def RankSorted (l : List Team) : Prop :=
  l.Pairwise (fun a b => TeamComparator b a = false)

/-- Inserting into a sorted list of recomputed teams keeps it sorted. -/
theorem insertTeam_sorted {t : Team} {l : List Team}
    (ht : t.recomputed) (hall : ∀ u ∈ l, u.recomputed)
    (hs : RankSorted l) : RankSorted (insertTeam t l) := by
  induction l with
  | nil => simp [insertTeam, RankSorted]
  | cons u us ih =>
    rw [RankSorted, List.pairwise_cons] at hs
    by_cases h : TeamComparator t u = true
    · simp only [insertTeam, h, ite_true]
      rw [RankSorted, List.pairwise_cons]
      refine ⟨?_, List.pairwise_cons.mpr hs⟩
      intro x hx
      rcases List.mem_cons.mp hx with rfl | hx'
      · exact TeamComparator_asymm h
      · cases hb : TeamComparator x t with
        | false => rfl
        | true =>
          have hxu : TeamComparator x u = true :=
            TeamComparator_trans (hall x (List.mem_cons_of_mem u hx'))
              ht (hall u (by simp)) hb h
          rw [hs.1 x hx'] at hxu
          simp at hxu
    · have h' : TeamComparator t u = false := by
        cases hb : TeamComparator t u with
        | false => rfl
        | true => exact absurd hb h
      simp only [insertTeam, h', Bool.false_eq_true, if_neg, ite_false]
      rw [RankSorted, List.pairwise_cons]
      constructor
      · intro x hx
        have hx' : x ∈ t :: us := (insertTeam_perm t us).mem_iff.mp hx
        rcases List.mem_cons.mp hx' with rfl | hx''
        · exact h'
        · exact hs.1 x hx''
      · exact ih (fun v hv => hall v (List.mem_cons_of_mem u hv)) hs.2

/-- Sorting a list of recomputed teams yields a sorted list. -/
theorem sortTeams_sorted {l : List Team} (hall : ∀ u ∈ l, u.recomputed) :
    RankSorted (sortTeams l) := by
  induction l with
  | nil => simp [sortTeams, RankSorted]
  | cons t ts ih =>
    refine insertTeam_sorted (hall t (by simp)) ?_ ?_
    · intro u hu
      exact hall u (List.mem_cons_of_mem t ((sortTeams_perm ts).mem_iff.mp hu))
    · exact ih (fun u hu => hall u (List.mem_cons_of_mem t hu))

/-- In a sorted list of teams with pairwise-distinct names, the position of
a member team equals the number of teams the comparator places strictly
before it. -/
theorem sorted_findIdx_eq_countP {l : List Team} (hs : RankSorted l)
    (hn : (l.map Team.name).Nodup) {t : Team} (ht : t ∈ l) :
    l.findIdx (fun u => u.name == t.name) =
      l.countP (fun u => TeamComparator u t) := by
  induction l with
  | nil => simp at ht
  | cons u us ih =>
    rw [RankSorted, List.pairwise_cons] at hs
    simp only [List.map_cons, List.nodup_cons] at hn
    by_cases hname : u.name = t.name
    · have hut : u = t := by
        rcases List.mem_cons.mp ht with rfl | ht'
        · rfl
        · exact absurd (hname ▸ List.mem_map_of_mem Team.name ht') hn.1
      subst hut
      rw [List.findIdx_cons]
      simp only [beq_self_eq_true, cond_true]
      have hz : ∀ x ∈ us, (TeamComparator x u) = false := hs.1
      rw [List.countP_cons]
      have : (List.countP (fun x => TeamComparator x u) us) = 0 := by
        rw [List.countP_eq_zero]
        intro x hx
        simp [hz x hx]
      simp [this, TeamComparator_irrefl]
    · have hb : (u.name == t.name) = false := by
        simp [hname]
      have ht' : t ∈ us := by
        rcases List.mem_cons.mp ht with rfl | ht'
        · exact absurd rfl hname
        · exact ht'
      rw [List.findIdx_cons, List.countP_cons]
      simp only [hb, cond_false]
      have hcut : TeamComparator u t = true := by
        have h₂ : TeamComparator t u = false := hs.1 t ht'
        rcases @TeamComparator_total u t hname with h | h
        · exact h
        · rw [h] at h₂
          simp at h₂
      have tail : List.Pairwise (fun a b => TeamComparator b a = false) us := hs.2
      rw [ih tail hn.2 ht']
      simp [hcut]

/-- Position of a name in the name list equals the position of the
correspondingly named team. -/
theorem indexOf_map_name (l : List Team) (n : String) :
    List.indexOf n (l.map Team.name) = l.findIdx (fun u => u.name == n) := by
  induction l with
  | nil => rfl
  | cons u us ih =>
    rw [List.map_cons, List.indexOf_cons, List.findIdx_cons, ih]

/-- Recomputing derived fields leaves a team with agreeing fields. -/
theorem calculate_ranking_recomputed (t : Team) :
    t.calculate_ranking.recomputed := ⟨rfl, rfl⟩

/-- On a team whose derived fields already agree, recomputation is the
identity. -/
theorem calculate_ranking_eq_self {t : Team} (h : t.recomputed) :
    t.calculate_ranking = t := by
  obtain ⟨h₁, h₂⟩ := h
  cases t
  simp only [Team.calculate_ranking]
  simp_all [Team.computeSolvedCount, Team.computePenalty]

/-- Recomputation keeps the name. -/
theorem calculate_ranking_name (t : Team) :
    t.calculate_ranking.name = t.name := rfl

/-! ### Further helper lemmas for the operation-level proofs -/

/-- Reading back an in-bounds update returns the written value. -/
theorem getD_set_eq {α : Type} (l : List α) (i : Nat) (a d : α) (h : i < l.length) :
    (l.set i a).getD i d = a := by
  induction l generalizing i with
  | nil => simp at h
  | cons x xs ih =>
    cases i with
    | zero => simp
    | succ j => simpa using ih j (by simpa using h)

/-- An update at one index leaves reads at other indices unchanged. -/
theorem getD_set_ne {α : Type} (l : List α) (i j : Nat) (a d : α) (h : i ≠ j) :
    (l.set i a).getD j d = l.getD j d := by
  induction l generalizing i j with
  | nil => simp
  | cons x xs ih =>
    cases i with
    | zero =>
      cases j with
      | zero => exact absurd rfl h
      | succ k => simp
    | succ i' =>
      cases j with
      | zero => simp
      | succ k => simpa using ih i' k (fun hh => h (by omega))

/-- Every member of a first-match update is an original member or the image
of an original member. -/
theorem mem_updateFirstTeam {ts : List Team} {n : String} {f : Team → Team}
    {u : Team} (h : u ∈ updateFirstTeam ts n f) : u ∈ ts ∨ ∃ v ∈ ts, u = f v := by
  induction ts with
  | nil => simp [updateFirstTeam] at h
  | cons t rest ih =>
    by_cases hb : (t.name == n) = true
    · simp only [updateFirstTeam, hb, ite_true] at h
      rcases List.mem_cons.mp h with rfl | h'
      · exact Or.inr ⟨t, by simp, rfl⟩
      · exact Or.inl (List.mem_cons_of_mem t h')
    · have hb' : (t.name == n) = false := by
        cases hc : (t.name == n) with
        | false => rfl
        | true => exact absurd hc hb
      simp only [updateFirstTeam, hb', Bool.false_eq_true, if_neg, ite_false] at h
      rcases List.mem_cons.mp h with rfl | h'
      · exact Or.inl (by simp)
      · rcases ih h' with h'' | ⟨v, hv, hu⟩
        · exact Or.inl (List.mem_cons_of_mem t h'')
        · exact Or.inr ⟨v, List.mem_cons_of_mem t hv, hu⟩

/-- Prepending to a list shifts its last element only when the list is
empty. -/
theorem getLast?_cons_or {α : Type} (x : α) (l : List α) :
    (x :: l).getLast? = l.getLast?.or (some x) := by
  induction l generalizing x with
  | nil => rfl
  | cons y ys ih =>
    rw [List.getLast?_cons_cons, ih y]
    cases hys : ys.getLast? with
    | none => rfl
    | some z => rfl

/-- The keep-the-last-match fold returns the last filtered element when one
exists, the initial accumulator otherwise. -/
theorem foldl_last_match {α : Type} (p : α → Bool) :
    ∀ (l : List α) (acc : Option α),
      l.foldl (fun a x => if p x then some x else a) acc =
        ((l.filter p).getLast?).or acc
  | [], acc => by simp
  | x :: xs, acc => by
    rw [List.foldl_cons, List.filter_cons]
    by_cases hp : p x = true
    · simp only [hp, ite_true, if_pos]
      rw [foldl_last_match p xs (some x), getLast?_cons_or]
      cases h : (xs.filter p).getLast? with
      | none => simp [Option.or]
      | some z => simp [Option.or]
    · have hp' : p x = false := by
        cases hc : p x with
        | false => rfl
        | true => exact absurd hc hp
      simp only [hp', Bool.false_eq_true, ite_false, if_neg]
      exact foldl_last_match p xs acc

/-! ### Claim C8 -/

/-- C8: a SUBMIT event that arrives before the contest has started, after it
has ended, that names an unknown team, or whose problem index is outside
`0..problem_count-1` is silently dropped: nothing is printed and the state is
completely unchanged. -/
theorem C8_out_of_window_submit_dropped (m : ICPCManagement) (prob_char : Char)
    (team_name status : String) (time : Int)
    (h : m.competition_started = false ∨ m.competition_ended = true ∨
      lookupTeam m.team_list team_name = none ∨
      (prob_char.toNat : Int) - 65 < 0 ∨
      (m.problem_count : Int) ≤ (prob_char.toNat : Int) - 65) :
    m.submit prob_char team_name status time = (m, []) := by
  rcases h with h | h | h | h | h
  · simp [ICPCManagement.submit, h]
  · simp [ICPCManagement.submit, h]
  · simp [ICPCManagement.submit, h]
  · simp [ICPCManagement.submit, h]
  · simp [ICPCManagement.submit, h]

/-- Witness for C8: a submission fed to the freshly constructed state (the
contest has not started) is dropped. -/
theorem C8_witness :
    ICPCManagement.init.submit 'A' "X" "Accepted" 10 = (ICPCManagement.init, []) :=
  C8_out_of_window_submit_dropped ICPCManagement.init 'A' "X" "Accepted" 10
    (Or.inl rfl)

/-! ### Claim C7 -/

/-- C7: for an existing team, QUERY_SUBMISSION reports the most recently
ingested submission matching both filters — the last match in log order —
and prints the "cannot find" sentinel when no logged submission matches. -/
theorem C7_query_submission_last_match (m : ICPCManagement)
    (team_name problem status : String) (t : Team)
    (ht : lookupTeam m.team_list team_name = some t) :
    m.query_submission team_name problem status =
      (m, ["[Info]Complete query submission.",
        match (t.submissions.filter (submissionMatches problem status)).getLast? with
        | none => "Cannot find any submission."
        | some sub => "[" ++ team_name ++ "] [" ++ Char.toString sub.problem ++ "] ["
            ++ sub.status ++ "] [" ++ toString sub.time ++ "]"]) := by
  have hq : querySelect t.submissions problem status =
      (t.submissions.filter (submissionMatches problem status)).getLast? := by
    rw [querySelect, foldl_last_match, Option.or_none]
  simp only [ICPCManagement.query_submission, ht, hq]

/-- A concrete team with two logged submissions, the later one accepted. -/
def c7Team : Team :=
  { name := "X", problems := [ProblemStatus.init],
    submissions := [⟨'A', "Wrong_Answer", 10⟩, ⟨'A', "Accepted", 20⟩],
    penalty_time := 0, solved_count := 0 }

/-- A concrete mid-contest state holding `c7Team`. -/
def c7State : ICPCManagement :=
  { team_list := [c7Team], competition_started := true, competition_ended := false,
    duration_time := 100, problem_count := 1, is_frozen := false,
    freeze_time := -1, scoreboard_flushed := false, last_flushed_ranking := [] }

/-- Witness for C7: with both filters `ALL`, the query reports the last
logged submission, not the first. -/
theorem C7_witness :
    c7State.query_submission "X" "ALL" "ALL" =
      (c7State, ["[Info]Complete query submission.", "[X] [A] [Accepted] [20]"]) := by
  rw [C7_query_submission_last_match c7State "X" "ALL" "ALL" c7Team rfl]
  rfl

/-! ### Claim C9 -/

/-- C9: a submission ingested while the scoreboard is globally frozen, for a
problem the team has already solved, leaves that `ProblemStatus` (indeed the
whole problem vector) unchanged; its only effect is appending the record to
the team's submission log. -/
theorem C9_frozen_solved_submission_appends_log_only
    (m : ICPCManagement) (prob_char : Char) (team_name status : String)
    (time : Int) (t : Team) (i : Nat)
    (hstart : m.competition_started = true) (hend : m.competition_ended = false)
    (hfroz : m.is_frozen = true)
    (ht : lookupTeam m.team_list team_name = some t)
    (hidx : (prob_char.toNat : Int) - 65 = (i : Int))
    (hiP : i < m.problem_count)
    (hilen : i < t.problems.length)
    (hsolved : (t.problems.getD i ProblemStatus.init).solved = true) :
    m.submit prob_char team_name status time =
      ({ m with team_list := updateFirstTeam m.team_list team_name (fun u =>
          { u with submissions :=
              u.submissions ++ [SubmissionRecord.mk prob_char status time] }) },
       []) := by
  have hg₁ : ¬ (¬ m.competition_started = true ∨ m.competition_ended = true) := by
    simp [hstart, hend]
  have hg₂ : ¬ ((lookupTeam m.team_list team_name).isNone = true) := by
    simp [ht]
  have hg₃ : ¬ ((prob_char.toNat : Int) - 65 < 0 ∨
      (m.problem_count : Int) ≤ (prob_char.toNat : Int) - 65) := by
    rw [hidx]
    push_neg
    constructor
    · omega
    · omega
  have htn : ((prob_char.toNat : Int) - 65).toNat = i := by
    rw [hidx]
    exact Int.toNat_natCast i
  obtain ⟨pre, post, hts, hpre, hupd⟩ := lookupTeam_split ht
  simp only [ICPCManagement.submit, if_neg hg₁, if_neg hg₂, if_neg hg₃, htn]
  rw [hupd, hupd]
  have hps0 : submitStatus m.is_frozen status time
      (t.problems.getD i ProblemStatus.init) =
      t.problems.getD i ProblemStatus.init := by
    unfold submitStatus
    rw [hfroz, hsolved]
    simp
  have hbody :
      (let t' := { t with submissions :=
          t.submissions ++ [SubmissionRecord.mk prob_char status time] }
       let ps := t'.problems.getD i ProblemStatus.init
       { t' with problems :=
           t'.problems.set i (submitStatus m.is_frozen status time ps) }) =
      { t with submissions :=
          t.submissions ++ [SubmissionRecord.mk prob_char status time] } := by
    dsimp only
    rw [hps0]
    have hset := set_getD_eq t.problems i ProblemStatus.init hilen
    simp only [hset]
  rw [hbody]

/-- A concrete team that already solved its only problem before the
freeze. -/
def c9Team : Team :=
  { name := "X", problems := [⟨0, true, 5, 0, false, -1⟩],
    submissions := [⟨'A', "Accepted", 5⟩],
    penalty_time := 5, solved_count := 1 }

/-- A concrete frozen mid-contest state holding `c9Team`. -/
def c9State : ICPCManagement :=
  { team_list := [c9Team], competition_started := true, competition_ended := false,
    duration_time := 100, problem_count := 1, is_frozen := true,
    freeze_time := 80, scoreboard_flushed := true, last_flushed_ranking := ["X"] }

/-- Witness for C9: a frozen-period wrong submission for the already-solved
problem only appends to the log. -/
theorem C9_witness :
    c9State.submit 'A' "X" "Wrong_Answer" 90 =
      ({ c9State with team_list := updateFirstTeam c9State.team_list "X" (fun u =>
          { u with submissions :=
              u.submissions ++ [SubmissionRecord.mk 'A' "Wrong_Answer" 90] }) },
       []) :=
  C9_frozen_solved_submission_appends_log_only c9State 'A' "X" "Wrong_Answer" 90
    c9Team 0 rfl rfl rfl (by decide) (by decide) (by decide) (by decide) (by decide)

/-! ### Claim C2 -/

/-- Recomputing derived fields never touches the problem vector. -/
theorem map_problems_calculate (l : List Team) :
    (l.map Team.calculate_ranking).map Team.problems = l.map Team.problems := by
  rw [List.map_map]
  rfl

/-- C2 (amended): a successful FREEZE sets the global `is_frozen` flag and
leaves every team's `ProblemStatus` records completely unchanged — no
per-problem `is_frozen` flag is set at freeze time. -/
theorem C2_freeze_sets_global_flag_only (m : ICPCManagement)
    (hstart : m.competition_started = true) (hend : m.competition_ended = false)
    (hfroz : m.is_frozen = false) :
    (m.freeze_scoreboard).1.is_frozen = true ∧
      (m.freeze_scoreboard).1.team_list.map Team.problems =
        m.team_list.map Team.problems := by
  have hg : ¬ (¬ m.competition_started = true ∨ m.competition_ended = true) := by
    simp [hstart, hend]
  simp only [ICPCManagement.freeze_scoreboard, ICPCManagement.flush_scoreboard,
    if_neg hg, hfroz, Bool.false_eq_true, ite_false, if_neg, not_false_eq_true]
  exact ⟨trivial, map_problems_calculate m.team_list⟩

/-- The concrete state reached by `ADDTEAM X; START ...; FREEZE`. -/
def c2Final : ICPCManagement := runOps [Op.addteam "X", Op.start 100 1, Op.freeze]

/-- Counterexample to C2 as stated: after a successful FREEZE (the global
flag is set) team `X`'s only problem is unsolved yet its `is_frozen` flag is
still `false`. -/
theorem C2_counterexample :
    c2Final.is_frozen = true ∧
      ¬ (∀ t ∈ c2Final.team_list, ∀ ps ∈ t.problems,
          ps.solved = false → ps.is_frozen = true) := by
  constructor
  · decide
  · decide

/-- The concrete state just before the freeze of `c2Final`. -/
def c2Pre : ICPCManagement := runOps [Op.addteam "X", Op.start 100 1]

/-- Witness for the amended C2. -/
theorem C2_witness :
    (c2Pre.freeze_scoreboard).1.is_frozen = true ∧
      (c2Pre.freeze_scoreboard).1.team_list.map Team.problems =
        c2Pre.team_list.map Team.problems :=
  C2_freeze_sets_global_flag_only c2Pre (by decide) (by decide) (by decide)

/-! ### Claim C3 -/

/-- After the reveal step rewrites the target team, looking its name up in
the recomputed team list returns the revealed-and-recomputed team. -/
theorem lookupTeam_scroll_target {teams : List Team} {tname : String} {t : Team}
    (i : Nat) (ht : lookupTeam teams tname = some t) :
    lookupTeam ((updateFirstTeam teams tname
        (fun u => revealProblem u i)).map Team.calculate_ranking) tname =
      some ((revealProblem t i).calculate_ranking) := by
  rw [lookupTeam_map Team.calculate_ranking calculate_ranking_name,
    lookupTeam_update (fun u => revealProblem u i) (fun u => rfl)]
  simp [ht]

/-- C3 (amended): when SCROLL reveals a frozen problem whose submission log
contains no accepted submission, the problem remains unsolved, its
`is_frozen` flag is cleared, and `wrong_before` and
`submissions_after_freeze` keep the values they had before the reveal — the
frozen-period wrong attempts are never merged into `wrong_before`. -/
theorem C3_reveal_without_accept_keeps_wrong_before
    (teams : List Team) (order : List String) (pc : Nat) (tname : String)
    (i : Nat) (t : Team) (teams₂ : List Team) (newOrder : List String)
    (ch : Option ChangeEvent)
    (hfind : findTargetAux order.reverse teams pc = some (tname, i))
    (ht : lookupTeam teams tname = some t)
    (hacc : firstAccepted t i = none)
    (hsol : (t.problems.getD i ProblemStatus.init).solved = false)
    (hlen : i < t.problems.length)
    (hstep : scrollStep teams order pc = some (teams₂, newOrder, ch)) :
    ∃ t₂, lookupTeam teams₂ tname = some t₂ ∧
      (t₂.problems.getD i ProblemStatus.init).solved = false ∧
      (t₂.problems.getD i ProblemStatus.init).wrong_before =
        (t.problems.getD i ProblemStatus.init).wrong_before ∧
      (t₂.problems.getD i ProblemStatus.init).submissions_after_freeze =
        (t.problems.getD i ProblemStatus.init).submissions_after_freeze ∧
      (t₂.problems.getD i ProblemStatus.init).is_frozen = false := by
  unfold scrollStep at hstep
  rw [hfind] at hstep
  simp only [Option.some.injEq] at hstep
  have hT : teams₂ =
      (updateFirstTeam teams tname (fun u => revealProblem u i)).map
        Team.calculate_ranking :=
    (congrArg (fun p => p.1) hstep).symm
  refine ⟨(revealProblem t i).calculate_ranking, ?_, ?_⟩
  · rw [hT]
    exact lookupTeam_scroll_target i ht
  · have hrev : (revealProblem t i).calculate_ranking.problems =
        t.problems.set i
          { t.problems.getD i ProblemStatus.init with is_frozen := false } := by
      simp [revealProblem, hacc, Team.calculate_ranking]
    have hget : ((revealProblem t i).calculate_ranking.problems.getD i
        ProblemStatus.init) =
        { t.problems.getD i ProblemStatus.init with is_frozen := false } := by
      rw [hrev]
      exact getD_set_eq t.problems i _ ProblemStatus.init hlen
    rw [hget]
    exact ⟨hsol, rfl, rfl, rfl⟩

/-- The concrete state after `ADDTEAM X; START; wrong at 10; FREEZE;
wrong at 60; SCROLL`. -/
def c3Final : ICPCManagement :=
  runOps [Op.addteam "X", Op.start 100 1, Op.submit 'A' "X" "Wrong_Answer" 10,
    Op.freeze, Op.submit 'A' "X" "Wrong_Answer" 60, Op.scroll]

/-- Counterexample to C3 as stated: after the scroll reveals the unsolved
problem, `wrong_before` is `1` (only the pre-freeze attempt) while the
team's whole history holds `2` non-accepted submissions for that problem;
the claim demands those two numbers be equal. -/
theorem C3_counterexample :
    (lookupTeam c3Final.team_list "X").map
        (fun t => (t.problems.getD 0 ProblemStatus.init).wrong_before) = some 1 ∧
      (lookupTeam c3Final.team_list "X").map
        (fun t => (t.submissions.filter
          (fun s => s.status ≠ "Accepted")).length) = some 2 ∧
      (lookupTeam c3Final.team_list "X").map
        (fun t => (t.problems.getD 0 ProblemStatus.init).solved) = some false ∧
      (1 : Nat) ≠ 2 := by
  refine ⟨by decide, by decide, by decide, by decide⟩

/-- The frozen unsolved team fed to the C3 witness: one pre-freeze wrong
attempt counted in `wrong_before`, one frozen-period wrong attempt counted
in `submissions_after_freeze`, both in the log. -/
def c3Team : Team :=
  { name := "X", problems := [⟨1, false, -1, 1, true, 60⟩],
    submissions := [⟨'A', "Wrong_Answer", 10⟩, ⟨'A', "Wrong_Answer", 60⟩],
    penalty_time := 0, solved_count := 0 }

/-- `c3Team` after its only problem is revealed (still unsolved). -/
def c3TeamAfter : Team :=
  { name := "X", problems := [⟨1, false, -1, 1, false, 60⟩],
    submissions := [⟨'A', "Wrong_Answer", 10⟩, ⟨'A', "Wrong_Answer", 60⟩],
    penalty_time := 0, solved_count := 0 }

/-- Witness for the amended C3. -/
theorem C3_witness :
    ∃ t₂, lookupTeam [c3TeamAfter] "X" = some t₂ ∧
      (t₂.problems.getD 0 ProblemStatus.init).solved = false ∧
      (t₂.problems.getD 0 ProblemStatus.init).wrong_before =
        (c3Team.problems.getD 0 ProblemStatus.init).wrong_before ∧
      (t₂.problems.getD 0 ProblemStatus.init).submissions_after_freeze =
        (c3Team.problems.getD 0 ProblemStatus.init).submissions_after_freeze ∧
      (t₂.problems.getD 0 ProblemStatus.init).is_frozen = false :=
  C3_reveal_without_accept_keeps_wrong_before [c3Team] ["X"] 1 "X" 0 c3Team
    [c3TeamAfter] ["X"] none (by decide) (by decide) (by decide) (by decide)
    (by decide) (by decide)

/-! ### Claim C10 -/

/-- Revealing a problem never changes the length of the problem vector. -/
theorem revealProblem_length (t : Team) (i : Nat) :
    (revealProblem t i).problems.length = t.problems.length := by
  unfold revealProblem
  cases firstAccepted t i with
  | none => simp [List.length_set]
  | some sub => simp [List.length_set]

/-- One scroll iteration keeps every problem vector at length `pc`. -/
theorem scrollStep_length {teams : List Team} {order : List String} {pc : Nat}
    {teams₂ : List Team} {newOrder : List String} {ch : Option ChangeEvent}
    (hstep : scrollStep teams order pc = some (teams₂, newOrder, ch))
    (hm : ∀ t ∈ teams, t.problems.length = pc) :
    ∀ t ∈ teams₂, t.problems.length = pc := by
  unfold scrollStep at hstep
  cases hfind : findTargetAux order.reverse teams pc with
  | none => rw [hfind] at hstep; exact Option.noConfusion hstep
  | some target =>
    rw [hfind] at hstep
    simp only [Option.some.injEq] at hstep
    have hT : teams₂ = (updateFirstTeam teams target.1
        (fun u => revealProblem u target.2)).map Team.calculate_ranking :=
      (congrArg (fun p => p.1) hstep).symm
    intro t htmem
    rw [hT] at htmem
    obtain ⟨u, hu, rfl⟩ := List.mem_map.mp htmem
    have hulen : u.problems.length = pc := by
      rcases mem_updateFirstTeam hu with h | ⟨v, hv, rfl⟩
      · exact hm u h
      · rw [revealProblem_length]
        exact hm v hv
    simpa [Team.calculate_ranking] using hulen

/-- The whole scroll loop keeps every problem vector at length `pc`. -/
theorem scrollLoop_length (fuel : Nat) :
    ∀ (teams : List Team) (order : List String) (pc : Nat),
      (∀ t ∈ teams, t.problems.length = pc) →
      ∀ t ∈ (scrollLoop fuel teams order pc).1, t.problems.length = pc := by
  induction fuel with
  | zero => intro teams order pc hm; simpa [scrollLoop] using hm
  | succ fuel ih =>
    intro teams order pc hm
    unfold scrollLoop
    cases hstep : scrollStep teams order pc with
    | none => simpa using hm
    | some r =>
      obtain ⟨teams', order', ch⟩ := r
      simpa using ih teams' order' pc (scrollStep_length hstep hm)

/-- The problem-vector length invariant of C10. -/
def lenInv (m : ICPCManagement) : Prop :=
  ∀ t ∈ m.team_list, t.problems.length = m.problem_count

/-- Every team's problem vector after a flush still has invariant length. -/
theorem flush_lenInv (m : ICPCManagement) (hm : lenInv m) :
    lenInv (m.flush_scoreboard).1 := by
  unfold ICPCManagement.flush_scoreboard
  split
  · exact hm
  · intro t ht
    obtain ⟨u, hu, rfl⟩ := List.mem_map.mp ht
    simpa [Team.calculate_ranking] using hm u hu

/-- C10: the empty initial state satisfies the length invariant, every
operation (START sizing included) preserves it, and under it every problem
access at an index below `problem_count` is in bounds. -/
theorem C10_problem_vectors_sized (op : Op) (m : ICPCManagement)
    (hm : lenInv m) :
    lenInv ICPCManagement.init ∧ lenInv (step op m).1 ∧
      (∀ t ∈ m.team_list, ∀ i, i < m.problem_count → i < t.problems.length) := by
  refine ⟨by intro t ht; simp [ICPCManagement.init] at ht, ?_, ?_⟩
  · cases op with
    | addteam n =>
      simp only [step]
      unfold ICPCManagement.add_team
      split
      · exact hm
      · split
        · exact hm
        · intro t ht
          rcases List.mem_append.mp ht with h | h
          · exact hm t h
          · simp only [List.mem_singleton] at h
            subst h
            simp
    | start d p =>
      simp only [step]
      unfold ICPCManagement.start_competition
      split
      · exact hm
      · intro t ht
        obtain ⟨u, hu, rfl⟩ := List.mem_map.mp ht
        simp [resizeProblems_length]
    | submit c n s time =>
      simp only [step]
      unfold ICPCManagement.submit
      split
      · exact hm
      · split
        · exact hm
        · dsimp only
          split
          · exact hm
          · intro t ht
            dsimp only at ht
            rcases mem_updateFirstTeam ht with h | ⟨v, hv, rfl⟩
            · exact hm t h
            · simpa [List.length_set] using hm v hv
    | flush => exact flush_lenInv m hm
    | freeze =>
      simp only [step]
      unfold ICPCManagement.freeze_scoreboard
      split
      · exact hm
      · split
        · exact hm
        · exact flush_lenInv { m with is_frozen := true } hm
    | scroll =>
      simp only [step]
      unfold ICPCManagement.scroll_scoreboard
      split
      · exact hm
      · split
        · exact hm
        · intro t ht
          exact scrollLoop_length _ _ _ _ (flush_lenInv m hm) t ht
    | queryRanking n =>
      simp only [step]
      unfold ICPCManagement.query_ranking
      split
      · exact hm
      · exact hm
    | querySubmission n p s =>
      simp only [step]
      unfold ICPCManagement.query_submission
      split
      · exact hm
      · exact hm
    | endComp =>
      simp only [step]
      unfold ICPCManagement.end_competition
      split
      · exact hm
      · exact hm
  · intro t ht i hi
    rw [hm t ht]
    exact hi

/-- Witness for C10: the invariant holds initially, survives a START that
sizes the problem vectors, and yields in-bounds accesses. -/
theorem C10_witness :
    lenInv ICPCManagement.init ∧
      lenInv (step (Op.start 100 3) (runOps [Op.addteam "X"])).1 ∧
      (∀ t ∈ (runOps [Op.addteam "X"]).team_list, ∀ i,
        i < (runOps [Op.addteam "X"]).problem_count → i < t.problems.length) :=
  C10_problem_vectors_sized (Op.start 100 3) (runOps [Op.addteam "X"])
    (by unfold lenInv; decide)

/-! ### Claim C4 -/

/-- C4: on teams with recomputed derived fields and pairwise-distinct names,
`TeamComparator` is a strict total order: irreflexive, antisymmetric,
transitive, and total on distinct names. -/
theorem C4_comparator_strict_total_order (a b c : Team)
    (ha : a.recomputed) (hb : b.recomputed) (hc : c.recomputed)
    (hab : a.name ≠ b.name) :
    TeamComparator a a = false ∧
      ¬ (TeamComparator a b = true ∧ TeamComparator b a = true) ∧
      (TeamComparator a b = true → TeamComparator b c = true →
        TeamComparator a c = true) ∧
      (TeamComparator a b = true ∨ TeamComparator b a = true) := by
  refine ⟨TeamComparator_irrefl a, ?_, TeamComparator_trans ha hb hc,
    TeamComparator_total hab⟩
  rintro ⟨h₁, h₂⟩
  rw [TeamComparator_asymm h₁] at h₂
  exact Bool.noConfusion h₂

/-- A recomputed team that solved its problem at time 5. -/
def c4A : Team := ⟨"A", [⟨0, true, 5, 0, false, -1⟩], [], 5, 1⟩

/-- A recomputed team that solved its problem at time 100. -/
def c4B : Team := ⟨"B", [⟨0, true, 100, 0, false, -1⟩], [], 100, 1⟩

/-- A recomputed team with no solved problem. -/
def c4C : Team := ⟨"C", [⟨2, false, -1, 0, false, -1⟩], [], 0, 0⟩

/-- Witness for C4 on three concrete recomputed teams. -/
theorem C4_witness :
    TeamComparator c4A c4A = false ∧
      ¬ (TeamComparator c4A c4B = true ∧ TeamComparator c4B c4A = true) ∧
      (TeamComparator c4A c4B = true → TeamComparator c4B c4C = true →
        TeamComparator c4A c4C = true) ∧
      (TeamComparator c4A c4B = true ∨ TeamComparator c4B c4A = true) :=
  C4_comparator_strict_total_order c4A c4B c4C (by decide) (by decide)
    (by decide) (by decide)

/-! ### Machinery for the scroll-step rank analysis (claims C1 and C5) -/

/-- The index returned by the frozen-problem scan is within the scan bound,
in bounds of the list, and points at a frozen status. -/
theorem firstFrozenIdx_spec : ∀ (l : List ProblemStatus) (pc i : Nat),
    firstFrozenIdx l pc = some i →
    i < pc ∧ i < l.length ∧ (l.getD i ProblemStatus.init).is_frozen = true
  | _, 0, _, h => by simp [firstFrozenIdx] at h
  | [], _ + 1, _, h => by simp [firstFrozenIdx] at h
  | ps :: rest, pc + 1, i, h => by
    by_cases hf : ps.is_frozen = true
    · simp only [firstFrozenIdx, hf, ite_true, Option.some.injEq] at h
      subst h
      simpa using hf
    · have hf' : ps.is_frozen = false := by
        cases hb : ps.is_frozen with
        | false => rfl
        | true => exact absurd hb hf
      simp only [firstFrozenIdx, hf', Bool.false_eq_true, ite_false, if_neg,
        not_false_eq_true, Option.map_eq_some'] at h
      obtain ⟨j, hj, rfl⟩ := h
      have := firstFrozenIdx_spec rest pc j hj
      refine ⟨by omega, by simpa using this.2.1, by simpa using this.2.2⟩

/-- The target search returns a name owned by a stored team whose problem
scan found the given frozen index. -/
theorem findTargetAux_spec : ∀ (ns : List String) (teams : List Team) (pc : Nat)
    (tname : String) (i : Nat), findTargetAux ns teams pc = some (tname, i) →
    ∃ t, lookupTeam teams t.name = some t ∧ t.name = tname ∧
      firstFrozenIdx t.problems pc = some i
  | [], _, _, _, _, h => by simp [findTargetAux] at h
  | n :: rest, teams, pc, tname, i, h => by
    cases hl : lookupTeam teams n with
    | none =>
      rw [findTargetAux, hl] at h
      exact findTargetAux_spec rest teams pc tname i h
    | some t =>
      rw [findTargetAux, hl] at h
      dsimp only at h
      cases hff : firstFrozenIdx t.problems pc with
      | none =>
        rw [hff] at h
        exact findTargetAux_spec rest teams pc tname i h
      | some j =>
        rw [hff] at h
        simp only [Option.some.injEq, Prod.mk.injEq] at h
        obtain ⟨rfl, rfl⟩ := h
        have hn : t.name = n := lookupTeam_name hl
        exact ⟨t, by rw [hn]; exact hl, hn, hff⟩

/-- In a name-nodup decomposition `pre ++ t :: post`, no other team carries
`t`'s name. -/
theorem nodup_names_ne {pre post : List Team} {t : Team}
    (hn : ((pre ++ t :: post).map Team.name).Nodup) :
    ∀ u ∈ pre ++ post, u.name ≠ t.name := by
  intro u hu he
  rw [List.map_append, List.map_cons] at hn
  rw [List.nodup_append] at hn
  rcases List.mem_append.mp hu with h | h
  · have h₁ : u.name ∈ pre.map Team.name := List.mem_map_of_mem _ h
    have h₂ : u.name ∈ t.name :: post.map Team.name := by simp [he]
    exact hn.2.2 h₁ h₂
  · have h₂ := List.nodup_cons.mp hn.2.1
    exact h₂.1 (he ▸ List.mem_map_of_mem Team.name h)

/-- The comparator only reads the four key components of its left
argument. -/
theorem TeamComparator_congr_left {a a' : Team} (b : Team)
    (h₁ : a'.solved_count = a.solved_count) (h₂ : a'.penalty_time = a.penalty_time)
    (h₃ : a'.get_solved_times = a.get_solved_times) (h₄ : a'.name = a.name) :
    TeamComparator a' b = TeamComparator a b := by
  unfold TeamComparator
  rw [h₁, h₂, h₃, h₄]

/-- The comparator only reads the four key components of its right
argument. -/
theorem TeamComparator_congr_right {b b' : Team} (a : Team)
    (h₁ : b'.solved_count = b.solved_count) (h₂ : b'.penalty_time = b.penalty_time)
    (h₃ : b'.get_solved_times = b.get_solved_times) (h₄ : b'.name = b.name) :
    TeamComparator a b' = TeamComparator a b := by
  unfold TeamComparator
  rw [h₁, h₂, h₃, h₄]

/-- The rank of a member team in the materialized standings equals the
number of teams the comparator places before it. -/
theorem sorted_indexOf_name (l : List Team) (t : Team)
    (hrec : ∀ u ∈ l, u.recomputed) (hnodup : (l.map Team.name).Nodup)
    (ht : t ∈ l) :
    List.indexOf t.name ((sortTeams l).map Team.name) =
      l.countP (fun u => TeamComparator u t) := by
  rw [indexOf_map_name]
  have hs : RankSorted (sortTeams l) := sortTeams_sorted hrec
  have hperm := sortTeams_perm l
  have hn' : ((sortTeams l).map Team.name).Nodup :=
    ((hperm.map Team.name).nodup_iff).mpr hnodup
  have ht' : t ∈ sortTeams l := hperm.mem_iff.mpr ht
  rw [sorted_findIdx_eq_countP hs hn' ht']
  exact hperm.countP_eq _

/-- A frozen status is never visible. -/
theorem solvedVisible_of_frozen {ps : ProblemStatus} (h : ps.is_frozen = true) :
    solvedVisible ps = false := by
  simp [solvedVisible, h]

/-- Visibility of a status after clearing its freeze flag is its solved
flag. -/
theorem solvedVisible_unfreeze (ps : ProblemStatus) :
    solvedVisible { ps with is_frozen := false } = ps.solved := by
  simp [solvedVisible]

/-- Revealing a frozen problem with no accepted submission in the log (and
not marked solved) changes none of the comparator's four keys. -/
theorem reveal_noaccept_key_eq {t : Team} {i : Nat} (hrec : t.recomputed)
    (hfroz : (t.problems.getD i ProblemStatus.init).is_frozen = true)
    (hacc : firstAccepted t i = none)
    (hsol : (t.problems.getD i ProblemStatus.init).solved = false) :
    ((revealProblem t i).calculate_ranking).solved_count = t.solved_count ∧
      ((revealProblem t i).calculate_ranking).penalty_time = t.penalty_time ∧
      ((revealProblem t i).calculate_ranking).get_solved_times =
        t.get_solved_times ∧
      ((revealProblem t i).calculate_ranking).name = t.name := by
  have hvis_old : solvedVisible (t.problems.getD i ProblemStatus.init) = false :=
    solvedVisible_of_frozen hfroz
  have hprob : (revealProblem t i).problems =
      t.problems.set i
        { t.problems.getD i ProblemStatus.init with is_frozen := false } := by
    unfold revealProblem
    rw [hacc]
  have hfil : (revealProblem t i).problems.filter solvedVisible =
      t.problems.filter solvedVisible := by
    rw [hprob]
    exact filter_set_eq solvedVisible t.problems i _ ProblemStatus.init hvis_old
      ((solvedVisible_unfreeze _).trans hsol)
  refine ⟨?_, ?_, ?_, rfl⟩
  · show (revealProblem t i).computeSolvedCount = t.solved_count
    rw [hrec.1]
    unfold Team.computeSolvedCount
    rw [hfil]
  · show (revealProblem t i).computePenalty = t.penalty_time
    rw [hrec.2]
    unfold Team.computePenalty
    rw [hfil]
  · show (revealProblem t i).get_solved_times = t.get_solved_times
    unfold Team.get_solved_times
    rw [hfil]

/-- Revealing a frozen problem that turns out solved (an accepted submission
exists, or the status was already marked solved) raises the visible solved
count by exactly one. -/
theorem reveal_solved_count_succ {t : Team} {i : Nat} (hrec : t.recomputed)
    (hfroz : (t.problems.getD i ProblemStatus.init).is_frozen = true)
    (hlen : i < t.problems.length)
    (h : firstAccepted t i ≠ none ∨
      (t.problems.getD i ProblemStatus.init).solved = true) :
    ((revealProblem t i).calculate_ranking).solved_count = t.solved_count + 1 := by
  have hvis_old : solvedVisible (t.problems.getD i ProblemStatus.init) = false :=
    solvedVisible_of_frozen hfroz
  show (revealProblem t i).computeSolvedCount = t.solved_count + 1
  rw [hrec.1]
  unfold Team.computeSolvedCount
  rw [← List.countP_eq_length_filter, ← List.countP_eq_length_filter]
  cases hacc : firstAccepted t i with
  | some sub =>
    have hprob : (revealProblem t i).problems =
        t.problems.set i
          { t.problems.getD i ProblemStatus.init with
              solved := true, solved_time := sub.time, is_frozen := false } := by
      unfold revealProblem
      rw [hacc]
    rw [hprob]
    exact countP_set_succ solvedVisible t.problems i _ ProblemStatus.init hlen
      hvis_old (by simp [solvedVisible])
  | none =>
    have hsol : (t.problems.getD i ProblemStatus.init).solved = true := by
      rcases h with h | h
      · exact absurd hacc h
      · exact h
    have hprob : (revealProblem t i).problems =
        t.problems.set i
          { t.problems.getD i ProblemStatus.init with is_frozen := false } := by
      unfold revealProblem
      rw [hacc]
    rw [hprob]
    exact countP_set_succ solvedVisible t.problems i _ ProblemStatus.init hlen
      hvis_old ((solvedVisible_unfreeze _).trans hsol)

/-- A team the revealed team preceded is still preceded after the reveal:
the reveal can only improve the revealed team's comparator position. -/
theorem reveal_never_worse {t u : Team} {i : Nat} (hrec : t.recomputed)
    (hfroz : (t.problems.getD i ProblemStatus.init).is_frozen = true)
    (hlen : i < t.problems.length)
    (hcmp : TeamComparator t u = true) :
    TeamComparator ((revealProblem t i).calculate_ranking) u = true := by
  by_cases hkey : firstAccepted t i = none ∧
      (t.problems.getD i ProblemStatus.init).solved = false
  · obtain ⟨h₁, h₂, h₃, h₄⟩ := reveal_noaccept_key_eq hrec hfroz hkey.1 hkey.2
    rw [TeamComparator_congr_left u h₁ h₂ h₃ h₄]
    exact hcmp
  · have hsucc : ((revealProblem t i).calculate_ranking).solved_count =
        t.solved_count + 1 := by
      refine reveal_solved_count_succ hrec hfroz hlen ?_
      by_cases ha : firstAccepted t i = none
      · right
        cases hb : (t.problems.getD i ProblemStatus.init).solved with
        | false => exact absurd ⟨ha, hb⟩ hkey
        | true => rfl
      · exact Or.inl ha
    have hge : u.solved_count ≤ t.solved_count := by
      unfold TeamComparator at hcmp
      by_cases hsc : t.solved_count = u.solved_count
      · omega
      · rw [if_pos hsc] at hcmp
        simp only [decide_eq_true_eq, gt_iff_lt] at hcmp
        omega
    unfold TeamComparator
    rw [hsucc]
    rw [if_pos (by omega : t.solved_count + 1 ≠ u.solved_count)]
    simp only [decide_eq_true_eq, gt_iff_lt]
    omega

/-! ### Claim C5 -/

/-- C5: during SCROLL, the revealed team's rank in the standings recomputed
right after its reveal is never numerically larger than its rank immediately
before that reveal. -/
theorem C5_reveal_never_worsens_rank (teams : List Team) (order : List String)
    (pc : Nat) (tname : String) (i : Nat) (teams₂ : List Team)
    (newOrder : List String) (ch : Option ChangeEvent)
    (hrec : ∀ u ∈ teams, u.recomputed)
    (hnodup : (teams.map Team.name).Nodup)
    (horder : order = (sortTeams teams).map Team.name)
    (hfind : findTargetAux order.reverse teams pc = some (tname, i))
    (hstep : scrollStep teams order pc = some (teams₂, newOrder, ch)) :
    List.indexOf tname newOrder ≤ List.indexOf tname order := by
  obtain ⟨t, ht₀, htn, hff⟩ := findTargetAux_spec _ _ _ _ _ hfind
  obtain ⟨hipc, hlen, hfroz⟩ := firstFrozenIdx_spec _ _ _ hff
  have ht : lookupTeam teams tname = some t := htn ▸ ht₀
  have htmem : t ∈ teams := lookupTeam_mem ht
  have hrect : t.recomputed := hrec t htmem
  unfold scrollStep at hstep
  rw [hfind] at hstep
  simp only [Option.some.injEq] at hstep
  have hT : teams₂ = (updateFirstTeam teams tname
      (fun u => revealProblem u i)).map Team.calculate_ranking :=
    (congrArg (fun p => p.1) hstep).symm
  have hO : newOrder = (sortTeams teams₂).map Team.name := by
    have := (congrArg (fun p => p.2.1) hstep).symm
    rw [hT]
    exact this
  obtain ⟨pre, post, hteams, hpre, hupd⟩ := lookupTeam_split ht
  have hpremem : ∀ u ∈ pre, u ∈ teams := by
    intro u hu
    rw [hteams]
    exact List.mem_append.mpr (Or.inl hu)
  have hpostmem : ∀ u ∈ post, u ∈ teams := by
    intro u hu
    rw [hteams]
    exact List.mem_append.mpr (Or.inr (List.mem_cons_of_mem t hu))
  have hteams₂ : teams₂ =
      pre ++ ((revealProblem t i).calculate_ranking) :: post := by
    rw [hT, hupd, List.map_append, List.map_cons]
    rw [map_id_of_mem _ pre (fun u hu => calculate_ranking_eq_self (hrec u (hpremem u hu)))]
    rw [map_id_of_mem _ post (fun u hu => calculate_ranking_eq_self (hrec u (hpostmem u hu)))]
  have hTname : ((revealProblem t i).calculate_ranking).name = t.name := rfl
  have hrec₂ : ∀ u ∈ teams₂, u.recomputed := by
    intro u hu
    rw [hT] at hu
    obtain ⟨v, _, rfl⟩ := List.mem_map.mp hu
    exact calculate_ranking_recomputed v
  have hnames₂ : teams₂.map Team.name = teams.map Team.name := by
    rw [hteams₂, hteams, List.map_append, List.map_append, List.map_cons,
      List.map_cons, hTname]
  have hnodup₂ : (teams₂.map Team.name).Nodup := by
    rw [hnames₂]
    exact hnodup
  have hTmem : ((revealProblem t i).calculate_ranking) ∈ teams₂ := by
    rw [hteams₂]
    exact List.mem_append.mpr (Or.inr (by simp))
  have hne : ∀ u ∈ pre ++ post, u.name ≠ t.name := by
    apply nodup_names_ne
    rw [← hteams]
    exact hnodup
  have himp : ∀ u ∈ pre ++ post,
      TeamComparator u ((revealProblem t i).calculate_ranking) = true →
      TeamComparator u t = true := by
    intro u hu hcu
    cases hut : TeamComparator u t with
    | true => rfl
    | false =>
      rcases @TeamComparator_total u t (hne u hu) with h | h
      · rw [hut] at h
        exact Bool.noConfusion h
      · have := TeamComparator_asymm (reveal_never_worse hrect hfroz hlen h)
        rw [this] at hcu
        exact Bool.noConfusion hcu
  have hold : List.indexOf tname order = teams.countP (fun u => TeamComparator u t) := by
    rw [horder, ← htn]
    exact sorted_indexOf_name teams t hrec hnodup htmem
  have hnew : List.indexOf tname newOrder =
      teams₂.countP (fun u => TeamComparator u ((revealProblem t i).calculate_ranking)) := by
    rw [hO, ← htn, ← hTname]
    exact sorted_indexOf_name teams₂ _ hrec₂ hnodup₂ hTmem
  rw [hold, hnew, hteams₂, hteams]
  rw [List.countP_append, List.countP_append, List.countP_cons, List.countP_cons]
  rw [TeamComparator_irrefl, TeamComparator_irrefl]
  simp only [Bool.false_eq_true, ite_false, if_neg, not_false_eq_true, add_zero]
  have h₁ := List.countP_mono_left
    (fun u hu => himp u (List.mem_append.mpr (Or.inl hu)))
  have h₂ := List.countP_mono_left
    (fun u hu => himp u (List.mem_append.mpr (Or.inr hu)))
  omega

/-- A recomputed team whose only problem is frozen with an accepted
submission waiting in the log. -/
def c5Team : Team :=
  ⟨"T", [⟨0, false, -1, 1, true, 50⟩], [⟨'A', "Accepted", 50⟩], 0, 0⟩

/-- `c5Team` after its reveal and recomputation. -/
def c5TeamAfter : Team :=
  ⟨"T", [⟨0, true, 50, 1, false, 50⟩], [⟨'A', "Accepted", 50⟩], 50, 1⟩

/-- Witness for C5 on a concrete one-team scroll step. -/
theorem C5_witness : List.indexOf "T" ["T"] ≤ List.indexOf "T" ["T"] :=
  C5_reveal_never_worsens_rank [c5Team] ["T"] 1 "T" 0 [c5TeamAfter] ["T"] none
    (by decide) (by decide) (by decide) (by decide) (by decide)

/-! ### Claim C1 -/

/-- C1 (amended): during SCROLL, a change event is recorded for a reveal
step if and only if the revealed team's rank improved; the recorded event
carries the revealed team's name, the name of the team that held the
revealed team's new rank in the standings immediately before the reveal
(the team it passed, now immediately below it), and the revealed team's new
`solved_count` and `penalty_time`. -/
theorem C1_change_event_iff_rank_improved (teams : List Team)
    (order : List String) (pc : Nat) (tname : String) (i : Nat)
    (teams₂ : List Team) (newOrder : List String) (ch : Option ChangeEvent)
    (hrec : ∀ u ∈ teams, u.recomputed)
    (hnodup : (teams.map Team.name).Nodup)
    (horder : order = (sortTeams teams).map Team.name)
    (hwf : ∀ u ∈ teams, ∀ ps ∈ u.problems, ps.is_frozen = true → ps.solved = false)
    (hfind : findTargetAux order.reverse teams pc = some (tname, i))
    (hstep : scrollStep teams order pc = some (teams₂, newOrder, ch)) :
    (ch.isSome = true ↔ List.indexOf tname newOrder < List.indexOf tname order) ∧
      ∀ c ∈ ch, c.team1 = tname ∧
        c.team2 = order.getD (List.indexOf tname newOrder) "" ∧
        ∃ t₂, lookupTeam teams₂ tname = some t₂ ∧
          c.solved = t₂.solved_count ∧ c.penalty = t₂.penalty_time := by
  obtain ⟨t, ht₀, htn, hff⟩ := findTargetAux_spec _ _ _ _ _ hfind
  obtain ⟨hipc, hlen, hfroz⟩ := firstFrozenIdx_spec _ _ _ hff
  have ht : lookupTeam teams tname = some t := htn ▸ ht₀
  have htmem : t ∈ teams := lookupTeam_mem ht
  have hrect : t.recomputed := hrec t htmem
  unfold scrollStep at hstep
  rw [hfind] at hstep
  simp only [Option.some.injEq] at hstep
  have hT : teams₂ = (updateFirstTeam teams tname
      (fun u => revealProblem u i)).map Team.calculate_ranking :=
    (congrArg (fun p => p.1) hstep).symm
  have hO : newOrder = (sortTeams teams₂).map Team.name := by
    have h' := (congrArg (fun p => p.2.1) hstep).symm
    rw [hT]
    exact h'
  have hlookT : lookupTeam teams₂ tname =
      some ((revealProblem t i).calculate_ranking) := by
    rw [hT]
    exact lookupTeam_scroll_target i ht
  have hC := (congrArg (fun p => p.2.2) hstep).symm
  rw [← hT] at hC
  rw [ht, hlookT] at hC
  dsimp only at hC
  have hIdx : List.indexOf tname ((sortTeams teams₂).map (fun u => u.name)) =
      List.indexOf tname newOrder := by
    rw [hO]
  -- rank characterizations, as in the monotonicity analysis
  obtain ⟨pre, post, hteams, hpre, hupd⟩ := lookupTeam_split ht
  have hpremem : ∀ u ∈ pre, u ∈ teams := by
    intro u hu
    rw [hteams]
    exact List.mem_append.mpr (Or.inl hu)
  have hpostmem : ∀ u ∈ post, u ∈ teams := by
    intro u hu
    rw [hteams]
    exact List.mem_append.mpr (Or.inr (List.mem_cons_of_mem t hu))
  have hteams₂ : teams₂ =
      pre ++ ((revealProblem t i).calculate_ranking) :: post := by
    rw [hT, hupd, List.map_append, List.map_cons]
    rw [map_id_of_mem _ pre (fun u hu => calculate_ranking_eq_self (hrec u (hpremem u hu)))]
    rw [map_id_of_mem _ post (fun u hu => calculate_ranking_eq_self (hrec u (hpostmem u hu)))]
  have hTname : ((revealProblem t i).calculate_ranking).name = t.name := rfl
  have hrec₂ : ∀ u ∈ teams₂, u.recomputed := by
    intro u hu
    rw [hT] at hu
    obtain ⟨v, _, rfl⟩ := List.mem_map.mp hu
    exact calculate_ranking_recomputed v
  have hnames₂ : teams₂.map Team.name = teams.map Team.name := by
    rw [hteams₂, hteams, List.map_append, List.map_append, List.map_cons,
      List.map_cons, hTname]
  have hnodup₂ : (teams₂.map Team.name).Nodup := by
    rw [hnames₂]
    exact hnodup
  have hTmem : ((revealProblem t i).calculate_ranking) ∈ teams₂ := by
    rw [hteams₂]
    exact List.mem_append.mpr (Or.inr (by simp))
  have hold : List.indexOf tname order =
      teams.countP (fun u => TeamComparator u t) := by
    rw [horder, ← htn]
    exact sorted_indexOf_name teams t hrec hnodup htmem
  have hnew : List.indexOf tname newOrder =
      teams₂.countP
        (fun u => TeamComparator u ((revealProblem t i).calculate_ranking)) := by
    rw [hO, ← htn, ← hTname]
    exact sorted_indexOf_name teams₂ _ hrec₂ hnodup₂ hTmem
  by_cases hacc : hasAccepted t i = true
  · by_cases hlt : List.indexOf tname newOrder < List.indexOf tname order
    · rw [if_pos ⟨by omega, hacc⟩] at hC
      constructor
      · rw [hC]
        simp only [Option.isSome_some, true_iff]
        exact hlt
      · intro c hcmem
        rw [hC] at hcmem
        simp only [Option.mem_def, Option.some.injEq] at hcmem
        subst hcmem
        refine ⟨rfl, ?_, ⟨_, hlookT, rfl, rfl⟩⟩
        have harg : List.indexOf tname order + 1 - 1 -
            (List.indexOf tname order + 1 -
              (List.indexOf tname ((sortTeams teams₂).map (fun u => u.name)) + 1)) =
            List.indexOf tname newOrder := by
          omega
        rw [harg]
    · rw [if_neg (by intro hcon; exact hlt (by omega))] at hC
      constructor
      · rw [hC]
        simp only [Option.isSome_none, Bool.false_eq_true, false_iff]
        exact hlt
      · intro c hcmem
        rw [hC] at hcmem
        simp at hcmem
  · -- no accepted submission: the reveal leaves every comparator key
    -- unchanged, so the rank cannot move and no event is recorded
    have haccn : firstAccepted t i = none := by
      cases hb : firstAccepted t i with
      | none => rfl
      | some sub => rw [hasAccepted, hb] at hacc; simp at hacc
    have hgetmem : t.problems.getD i ProblemStatus.init ∈ t.problems := by
      rw [List.getD_eq_getElem t.problems ProblemStatus.init hlen]
      exact List.getElem_mem hlen
    have hsol : (t.problems.getD i ProblemStatus.init).solved = false :=
      hwf t htmem _ hgetmem hfroz
    obtain ⟨k₁, k₂, k₃, k₄⟩ := reveal_noaccept_key_eq hrect hfroz haccn hsol
    have heq : List.indexOf tname newOrder = List.indexOf tname order := by
      rw [hold, hnew, hteams₂, hteams]
      rw [List.countP_append, List.countP_append, List.countP_cons,
        List.countP_cons, TeamComparator_irrefl, TeamComparator_irrefl]
      have hcongr : ∀ u : Team,
          TeamComparator u ((revealProblem t i).calculate_ranking) =
            TeamComparator u t := fun u =>
        TeamComparator_congr_right u k₁ k₂ k₃ k₄
      have hpreEq : List.countP
          (fun u => TeamComparator u ((revealProblem t i).calculate_ranking)) pre =
          List.countP (fun u => TeamComparator u t) pre :=
        List.countP_congr (fun x _ => by simp only [hcongr x])
      have hpostEq : List.countP
          (fun u => TeamComparator u ((revealProblem t i).calculate_ranking)) post =
          List.countP (fun u => TeamComparator u t) post :=
        List.countP_congr (fun x _ => by simp only [hcongr x])
      simp only [Bool.false_eq_true, if_neg, ite_false, not_false_eq_true, add_zero]
      rw [hpreEq, hpostEq]
    have haccf : hasAccepted t i = false := by
      cases hb : hasAccepted t i with
      | false => rfl
      | true => exact absurd hb hacc
    rw [if_neg (by intro hcon; rw [haccf] at hcon; exact Bool.noConfusion hcon.2)] at hC
    constructor
    · rw [hC]
      simp only [Option.isSome_none, Bool.false_eq_true, false_iff]
      omega
    · intro c hcmem
      rw [hC] at hcmem
      simp at hcmem

/-- Concrete team A: solved at time 5 before the freeze. -/
def c1A : Team := ⟨"A", [⟨0, true, 5, 0, false, -1⟩], [⟨'A', "Accepted", 5⟩], 5, 1⟩

/-- Concrete team B: solved at time 100 before the freeze. -/
def c1B : Team :=
  ⟨"B", [⟨0, true, 100, 0, false, -1⟩], [⟨'A', "Accepted", 100⟩], 100, 1⟩

/-- Concrete team T: its only problem frozen, an accepted submission at
time 20 waiting in the log. -/
def c1T : Team := ⟨"T", [⟨0, false, -1, 1, true, 20⟩], [⟨'A', "Accepted", 20⟩], 0, 0⟩

/-- Team T revealed and recomputed. -/
def c1Trev : Team :=
  ⟨"T", [⟨0, true, 20, 1, false, 20⟩], [⟨'A', "Accepted", 20⟩], 20, 1⟩

/-- Counterexample to C1 as stated: T climbs from rank 3 to rank 2; the
recorded event names `B` — the previous occupant of T's new rank, now
immediately below T — while the team now immediately above T in the new
order is `A`. -/
theorem C1_counterexample :
    scrollStep [c1A, c1B, c1T] ["A", "B", "T"] 1 =
      some ([c1A, c1B, c1Trev], ["A", "T", "B"],
        some ⟨"T", "B", 1, 20⟩) ∧
      ["A", "T", "B"].getD (List.indexOf "T" ["A", "T", "B"] - 1) "" = "A" ∧
      "B" ≠ "A" := by
  refine ⟨by decide, by decide, by decide⟩

/-- Witness for the amended C1 on the same concrete scroll step. -/
theorem C1_witness :
    ((some (⟨"T", "B", 1, 20⟩ : ChangeEvent)).isSome = true ↔
      List.indexOf "T" ["A", "T", "B"] < List.indexOf "T" ["A", "B", "T"]) ∧
      ∀ c ∈ (some (⟨"T", "B", 1, 20⟩ : ChangeEvent)), c.team1 = "T" ∧
        c.team2 = ["A", "B", "T"].getD (List.indexOf "T" ["A", "T", "B"]) "" ∧
        ∃ t₂, lookupTeam [c1A, c1B, c1Trev] "T" = some t₂ ∧
          c.solved = t₂.solved_count ∧ c.penalty = t₂.penalty_time :=
  C1_change_event_iff_rank_improved [c1A, c1B, c1T] ["A", "B", "T"] 1 "T" 0
    [c1A, c1B, c1Trev] ["A", "T", "B"] (some ⟨"T", "B", 1, 20⟩)
    (by decide) (by decide) (by decide) (by decide) (by decide) (by decide)

/-! ### Claim C6: penalty non-negativity and monotonicity -/

/-- A status records a legal solve time: non-negative once solved. -/
def ProblemStatus.timeOK (ps : ProblemStatus) : Prop :=
  ps.solved = true → 0 ≤ ps.solved_time

/-- All of a team's recorded timestamps are non-negative. -/
def Team.timesOK (t : Team) : Prop :=
  (∀ ps ∈ t.problems, ps.timeOK) ∧ (∀ sub ∈ t.submissions, 0 ≤ sub.time)

/-- The stored penalty is non-negative and bounded by the recomputed
penalty (it lags behind recomputations, never ahead). -/
def Team.penOK (t : Team) : Prop :=
  0 ≤ t.penalty_time ∧ t.penalty_time ≤ t.computePenalty

/-- Well-formedness of all teams for the penalty analysis. -/
def teamsWF (l : List Team) : Prop := ∀ t ∈ l, t.timesOK ∧ t.penOK

/-- State well-formedness: team well-formedness plus the fact that before
START no problems exist (`problem_count` is still 0 and every problem
vector is empty). -/
def ICPCManagement.WFpen (m : ICPCManagement) : Prop :=
  teamsWF m.team_list ∧
    (m.competition_started = false →
      m.problem_count = 0 ∧ ∀ t ∈ m.team_list, t.problems = [])

/-- The input constraint of C6: submission timestamps are non-negative. -/
def Op.timesNonneg : Op → Prop
  | .submit _ _ _ time => 0 ≤ time
  | _ => True

/-- The penalty contribution of one status to the visible penalty sum. -/
def visTerm (ps : ProblemStatus) : Int :=
  if solvedVisible ps then penTerm ps else 0

/-- Filtered-map sum as a sum of per-element contributions. -/
theorem sum_filter_map (p : ProblemStatus → Bool) (f : ProblemStatus → Int) :
    ∀ l : List ProblemStatus,
      ((l.filter p).map f).sum =
        (l.map (fun x => if p x then f x else 0)).sum
  | [] => rfl
  | x :: xs => by
    rw [List.filter_cons]
    by_cases hp : p x = true
    · simp only [hp, ite_true, List.map_cons, List.sum_cons]
      rw [sum_filter_map p f xs]
    · have hp' : p x = false := by
        cases hb : p x with
        | false => rfl
        | true => exact absurd hb hp
      simp only [hp', Bool.false_eq_true, ite_false, if_neg, not_false_eq_true,
        List.map_cons, List.sum_cons]
      rw [sum_filter_map p f xs]
      omega

/-- The recomputed penalty is the sum of per-problem contributions. -/
theorem computePenalty_eq_sum (t : Team) :
    t.computePenalty = (t.problems.map visTerm).sum := by
  unfold Team.computePenalty visTerm
  exact sum_filter_map solvedVisible penTerm t.problems

/-- Contributions are non-negative for statuses with legal solve times. -/
theorem visTerm_nonneg {ps : ProblemStatus} (h : ps.timeOK) : 0 ≤ visTerm ps := by
  unfold visTerm
  by_cases hv : solvedVisible ps = true
  · have hs : ps.solved = true := by
      unfold solvedVisible at hv
      exact (Bool.and_eq_true_iff.mp hv).1
    have := h hs
    simp only [hv, ite_true]
    unfold penTerm
    positivity
  · have hv' : solvedVisible ps = false := by
      cases hb : solvedVisible ps with
      | false => rfl
      | true => exact absurd hb hv
    simp [hv']

/-- A frozen status contributes nothing. -/
theorem visTerm_of_frozen {ps : ProblemStatus} (h : ps.is_frozen = true) :
    visTerm ps = 0 := by
  unfold visTerm
  rw [solvedVisible_of_frozen h]
  rfl

/-- An unsolved status contributes nothing. -/
theorem visTerm_of_unsolved {ps : ProblemStatus} (h : ps.solved = false) :
    visTerm ps = 0 := by
  unfold visTerm solvedVisible
  rw [h]
  rfl

/-- The recomputed penalty is non-negative when solve times are legal. -/
theorem computePenalty_nonneg {t : Team} (h : ∀ ps ∈ t.problems, ps.timeOK) :
    0 ≤ t.computePenalty := by
  rw [computePenalty_eq_sum]
  refine List.sum_nonneg ?_
  intro x hx
  obtain ⟨ps, hps, rfl⟩ := List.mem_map.mp hx
  exact visTerm_nonneg (h ps hps)

/-- The default-constructed status has a legal (vacuous) solve time. -/
theorem timeOK_init : ProblemStatus.init.timeOK := by
  intro h
  simp [ProblemStatus.init] at h

/-- The status read at any index has a legal solve time when all stored
ones do. -/
theorem timeOK_getD {l : List ProblemStatus} (h : ∀ ps ∈ l, ps.timeOK) (i : Nat) :
    (l.getD i ProblemStatus.init).timeOK := by
  by_cases hi : i < l.length
  · rw [List.getD_eq_getElem l ProblemStatus.init hi]
    exact h _ (List.getElem_mem hi)
  · rw [List.getD_eq_default]
    · exact timeOK_init
    · omega

/-- Per-team monotonicity of stored and recomputed penalties between two
team lists, matched by name. -/
def TeamsMono (l l' : List Team) : Prop :=
  ∀ n t, lookupTeam l n = some t → ∃ t', lookupTeam l' n = some t' ∧
    t.penalty_time ≤ t'.penalty_time ∧ t.computePenalty ≤ t'.computePenalty

/-- Monotonicity is reflexive. -/
theorem teamsMono_refl (l : List Team) : TeamsMono l l :=
  fun _ t h => ⟨t, h, le_refl _, le_refl _⟩

/-- Monotonicity composes. -/
theorem teamsMono_trans {a b c : List Team} (h₁ : TeamsMono a b)
    (h₂ : TeamsMono b c) : TeamsMono a c := by
  intro n t h
  obtain ⟨t', h', p₁, q₁⟩ := h₁ n t h
  obtain ⟨t'', h'', p₂, q₂⟩ := h₂ n t' h'
  exact ⟨t'', h'', le_trans p₁ p₂, le_trans q₁ q₂⟩

/-- `update_all_rankings` keeps teams well-formed and never lowers any
penalty: the stored value jumps up to the recomputed one. -/
theorem calc_map_wf {l : List Team} (h : teamsWF l) :
    teamsWF (l.map Team.calculate_ranking) ∧
      TeamsMono l (l.map Team.calculate_ranking) := by
  constructor
  · intro u hu
    obtain ⟨v, hv, rfl⟩ := List.mem_map.mp hu
    obtain ⟨ht, _⟩ := h v hv
    refine ⟨ht, ?_, le_refl _⟩
    show (0 : Int) ≤ v.computePenalty
    exact computePenalty_nonneg ht.1
  · intro n t hl
    rw [lookupTeam_map Team.calculate_ranking calculate_ranking_name, hl]
    refine ⟨t.calculate_ranking, rfl, ?_, le_refl _⟩
    exact (h t (lookupTeam_mem hl)).2.2

/-- Revealing a frozen problem keeps the team's timestamps legal and never
lowers its recomputed penalty. -/
theorem reveal_team_wf {t : Team} {i : Nat} (h : t.timesOK)
    (hfroz : (t.problems.getD i ProblemStatus.init).is_frozen = true) :
    (revealProblem t i).timesOK ∧
      t.computePenalty ≤ (revealProblem t i).computePenalty := by
  have hps : (t.problems.getD i ProblemStatus.init).timeOK := timeOK_getD h.1 i
  cases hacc : firstAccepted t i with
  | some sub =>
    have hsubmem : sub ∈ t.submissions := List.mem_of_find?_eq_some hacc
    have hsubtime : 0 ≤ sub.time := h.2 sub hsubmem
    have hprob : (revealProblem t i).problems =
        t.problems.set i
          { t.problems.getD i ProblemStatus.init with
              solved := true, solved_time := sub.time, is_frozen := false } := by
      unfold revealProblem
      rw [hacc]
    have hsubs : (revealProblem t i).submissions = t.submissions := rfl
    have hok : ({ t.problems.getD i ProblemStatus.init with
        solved := true, solved_time := sub.time,
        is_frozen := false } : ProblemStatus).timeOK := by
      intro _
      exact hsubtime
    refine ⟨⟨?_, ?_⟩, ?_⟩
    · intro ps hpsmem
      rw [hprob] at hpsmem
      rcases List.mem_or_eq_of_mem_set hpsmem with hmem | rfl
      · exact h.1 ps hmem
      · exact hok
    · rw [hsubs]
      exact h.2
    · rw [computePenalty_eq_sum, computePenalty_eq_sum, hprob]
      refine sum_map_set_le visTerm t.problems i _ ProblemStatus.init ?_
      rw [visTerm_of_frozen hfroz]
      exact visTerm_nonneg hok
  | none =>
    have hprob : (revealProblem t i).problems =
        t.problems.set i
          { t.problems.getD i ProblemStatus.init with is_frozen := false } := by
      unfold revealProblem
      rw [hacc]
    have hsubs : (revealProblem t i).submissions = t.submissions := rfl
    have hok : ({ t.problems.getD i ProblemStatus.init with
        is_frozen := false } : ProblemStatus).timeOK := by
      intro hs
      exact hps hs
    refine ⟨⟨?_, ?_⟩, ?_⟩
    · intro ps hpsmem
      rw [hprob] at hpsmem
      rcases List.mem_or_eq_of_mem_set hpsmem with hmem | rfl
      · exact h.1 ps hmem
      · exact hok
    · rw [hsubs]
      exact h.2
    · rw [computePenalty_eq_sum, computePenalty_eq_sum, hprob]
      refine sum_map_set_le visTerm t.problems i _ ProblemStatus.init ?_
      rw [visTerm_of_frozen hfroz]
      exact visTerm_nonneg hok

/-- One scroll iteration keeps the teams well-formed and never lowers any
penalty. -/
theorem scrollStep_wf {teams : List Team} {order : List String} {pc : Nat}
    {teams₂ : List Team} {newOrder : List String} {ch : Option ChangeEvent}
    (hstep : scrollStep teams order pc = some (teams₂, newOrder, ch))
    (hwf : teamsWF teams) : teamsWF teams₂ ∧ TeamsMono teams teams₂ := by
  unfold scrollStep at hstep
  cases hfind : findTargetAux order.reverse teams pc with
  | none =>
    rw [hfind] at hstep
    exact Option.noConfusion hstep
  | some target =>
    rw [hfind] at hstep
    simp only [Option.some.injEq] at hstep
    have hT : teams₂ = (updateFirstTeam teams target.1
        (fun u => revealProblem u target.2)).map Team.calculate_ranking :=
      (congrArg (fun p => p.1) hstep).symm
    obtain ⟨t, ht₀, htn, hff⟩ := findTargetAux_spec _ _ _ target.1 target.2 hfind
    obtain ⟨hipc, hlen, hfroz⟩ := firstFrozenIdx_spec _ _ _ hff
    have ht : lookupTeam teams target.1 = some t := htn ▸ ht₀
    have htmem : t ∈ teams := lookupTeam_mem ht
    obtain ⟨hrevOK, hrevPen⟩ := reveal_team_wf (hwf t htmem).1 hfroz
    obtain ⟨pre, post, hteams, hpre, hupd⟩ := lookupTeam_split ht
    have hmidwf : teamsWF (updateFirstTeam teams target.1
        (fun u => revealProblem u target.2)) := by
      rw [hupd]
      intro u hu
      rcases List.mem_append.mp hu with hmem | hmem
      · exact hwf u (by rw [hteams]; exact List.mem_append.mpr (Or.inl hmem))
      · rcases List.mem_cons.mp hmem with rfl | hmem'
        · refine ⟨hrevOK, ?_, ?_⟩
          · show (0 : Int) ≤ t.penalty_time
            exact (hwf t htmem).2.1
          · show t.penalty_time ≤ (revealProblem t target.2).computePenalty
            exact le_trans (hwf t htmem).2.2 hrevPen
        · refine hwf u ?_
          rw [hteams]
          exact List.mem_append.mpr (Or.inr (List.mem_cons_of_mem t hmem'))
    have hmidmono : TeamsMono teams (updateFirstTeam teams target.1
        (fun u => revealProblem u target.2)) := by
      intro n u hu
      rw [lookupTeam_update (fun v => revealProblem v target.2) (fun v => rfl)]
      by_cases hn : target.1 = n
      · subst hn
        have hut : u = t := Option.some.inj (hu.symm.trans ht)
        subst hut
        rw [if_pos rfl, ht]
        exact ⟨revealProblem u target.2, rfl, le_refl _, hrevPen⟩
      · rw [if_neg hn]
        exact ⟨u, hu, le_refl _, le_refl _⟩
    rw [hT]
    obtain ⟨hc₁, hc₂⟩ := calc_map_wf hmidwf
    exact ⟨hc₁, teamsMono_trans hmidmono hc₂⟩

/-- The whole scroll loop keeps the teams well-formed and never lowers any
penalty. -/
theorem scrollLoop_wf (fuel : Nat) :
    ∀ (teams : List Team) (order : List String) (pc : Nat), teamsWF teams →
      teamsWF (scrollLoop fuel teams order pc).1 ∧
        TeamsMono teams (scrollLoop fuel teams order pc).1 := by
  induction fuel with
  | zero =>
    intro teams order pc h
    exact ⟨h, teamsMono_refl _⟩
  | succ fuel ih =>
    intro teams order pc h
    unfold scrollLoop
    cases hstep : scrollStep teams order pc with
    | none => exact ⟨h, teamsMono_refl _⟩
    | some r =>
      obtain ⟨teams', order', ch⟩ := r
      obtain ⟨h₁, h₂⟩ := scrollStep_wf hstep h
      obtain ⟨h₃, h₄⟩ := ih teams' order' pc h₁
      exact ⟨h₃, teamsMono_trans h₂ h₄⟩

/-- The per-status submit mutation keeps solve times legal and never lowers
the status's penalty contribution. -/
theorem submitStatus_wf (frz : Bool) (s : String) (time : Int)
    (htime : 0 ≤ time) (ps : ProblemStatus) (hps : ps.timeOK) :
    (submitStatus frz s time ps).timeOK ∧
      visTerm ps ≤ visTerm (submitStatus frz s time ps) := by
  have main : (submitStatus frz s time ps).timeOK ∧
      (submitStatus frz s time ps = ps ∨ ps.solved = false) := by
    unfold submitStatus
    split
    · next hcase =>
      dsimp only
      split
      · exact ⟨fun h => hps h, Or.inr hcase.2⟩
      · exact ⟨fun h => hps h, Or.inr hcase.2⟩
    · split
      · split
        · next hcase => exact ⟨fun _ => htime, Or.inr hcase.2⟩
        · split
          · next hcase => exact ⟨fun h => hps h, Or.inr hcase.2⟩
          · exact ⟨hps, Or.inl rfl⟩
      · exact ⟨hps, Or.inl rfl⟩
  refine ⟨main.1, ?_⟩
  rcases main.2 with h | h
  · rw [h]
  · rw [visTerm_of_unsolved h]
    exact visTerm_nonneg main.1

/-- The whole per-team submit mutation keeps timestamps legal and never
lowers the recomputed penalty. -/
theorem submitTeam_wf (frz : Bool) (c : Char) (s : String) (time : Int)
    (i : Nat) (htime : 0 ≤ time) (v : Team) (hv : v.timesOK) :
    (let t' := { v with submissions :=
        v.submissions ++ [SubmissionRecord.mk c s time] }
     let ps := t'.problems.getD i ProblemStatus.init
     { t' with problems :=
         t'.problems.set i (submitStatus frz s time ps) }).timesOK ∧
      v.computePenalty ≤
        (let t' := { v with submissions :=
            v.submissions ++ [SubmissionRecord.mk c s time] }
         let ps := t'.problems.getD i ProblemStatus.init
         { t' with problems :=
             t'.problems.set i (submitStatus frz s time ps) }).computePenalty := by
  dsimp only
  obtain ⟨hok, hle⟩ := submitStatus_wf frz s time htime
    (v.problems.getD i ProblemStatus.init) (timeOK_getD hv.1 i)
  constructor
  · constructor
    · intro ps hps
      rcases List.mem_or_eq_of_mem_set hps with h | rfl
      · exact hv.1 ps h
      · exact hok
    · intro sub hsub
      rcases List.mem_append.mp hsub with h | h
      · exact hv.2 sub h
      · simp only [List.mem_singleton] at h
        subst h
        exact htime
  · rw [computePenalty_eq_sum, computePenalty_eq_sum]
    exact sum_map_set_le visTerm v.problems i _ ProblemStatus.init hle

/-- A freshly replicated problem vector contributes no penalty. -/
theorem filter_vis_replicate (p : Nat) :
    (List.replicate p ProblemStatus.init).filter solvedVisible = [] := by
  rw [List.filter_replicate]
  simp [solvedVisible, ProblemStatus.init]

/-- FLUSH keeps the state well-formed and never lowers any penalty. -/
theorem flush_wfMono (m : ICPCManagement) (hwf : m.WFpen) :
    (m.flush_scoreboard).1.WFpen ∧
      TeamsMono m.team_list (m.flush_scoreboard).1.team_list := by
  unfold ICPCManagement.flush_scoreboard
  split
  · exact ⟨hwf, teamsMono_refl _⟩
  · next hcond =>
    obtain ⟨hc₁, hc₂⟩ := calc_map_wf hwf.1
    refine ⟨⟨hc₁, ?_⟩, hc₂⟩
    intro hns
    have hs : m.competition_started = true := by
      cases hb : m.competition_started with
      | true => rfl
      | false => exact absurd (Or.inl (by simp [hb])) hcond
    exact absurd hns (by simp [hs])

/-- ADDTEAM keeps the state well-formed and never lowers any penalty. -/
theorem addteam_wfMono (m : ICPCManagement) (n : String) (hwf : m.WFpen) :
    (m.add_team n).1.WFpen ∧
      TeamsMono m.team_list (m.add_team n).1.team_list := by
  unfold ICPCManagement.add_team
  split
  · exact ⟨hwf, teamsMono_refl _⟩
  · split
    · exact ⟨hwf, teamsMono_refl _⟩
    · constructor
      · constructor
        · intro u hu
          rcases List.mem_append.mp hu with h | h
          · exact hwf.1 u h
          · simp only [List.mem_singleton] at h
            subst h
            refine ⟨⟨?_, ?_⟩, le_refl 0, ?_⟩
            · intro ps hps
              have hpsi : ps = ProblemStatus.init := List.eq_of_mem_replicate hps
              subst hpsi
              exact timeOK_init
            · intro sub hsub
              simp at hsub
            · show (0 : Int) ≤ Team.computePenalty _
              unfold Team.computePenalty
              rw [filter_vis_replicate]
              exact le_refl 0
        · intro hns
          obtain ⟨hpc, hemp⟩ := hwf.2 hns
          refine ⟨hpc, ?_⟩
          intro u hu
          rcases List.mem_append.mp hu with h | h
          · exact hemp u h
          · simp only [List.mem_singleton] at h
            subst h
            show List.replicate m.problem_count ProblemStatus.init = []
            rw [hpc]
            rfl
      · intro nm u hu
        refine ⟨u, ?_, le_refl _, le_refl _⟩
        show List.find? (fun t => t.name == nm) (m.team_list ++ _) = some u
        rw [List.find?_append, show List.find? (fun t => t.name == nm)
          m.team_list = some u from hu]
        rfl

/-- START keeps the state well-formed and never lowers any penalty. -/
theorem start_wfMono (m : ICPCManagement) (d : Int) (p : Nat) (hwf : m.WFpen) :
    (m.start_competition d p).1.WFpen ∧
      TeamsMono m.team_list (m.start_competition d p).1.team_list := by
  unfold ICPCManagement.start_competition
  split
  · exact ⟨hwf, teamsMono_refl _⟩
  · next hcond =>
    have hns : m.competition_started = false := by
      cases hb : m.competition_started with
      | false => rfl
      | true => exact absurd hb hcond
    obtain ⟨hpc, hemp⟩ := hwf.2 hns
    have hres : ∀ u ∈ m.team_list,
        resizeProblems u.problems p = List.replicate p ProblemStatus.init := by
      intro u hu
      rw [hemp u hu]
      unfold resizeProblems
      simp
    have hcompold : ∀ u ∈ m.team_list, u.computePenalty = 0 := by
      intro u hu
      unfold Team.computePenalty
      rw [hemp u hu]
      rfl
    have hcompnew : ∀ u ∈ m.team_list,
        Team.computePenalty { u with problems := resizeProblems u.problems p } = 0 := by
      intro u hu
      unfold Team.computePenalty
      dsimp only
      rw [hres u hu, filter_vis_replicate]
      rfl
    constructor
    · constructor
      · intro u hu
        obtain ⟨v, hv, rfl⟩ := List.mem_map.mp hu
        obtain ⟨⟨_, hsubs⟩, hpen₁, hpen₂⟩ := hwf.1 v hv
        refine ⟨⟨?_, hsubs⟩, hpen₁, ?_⟩
        · intro ps hps
          have : ps ∈ List.replicate p ProblemStatus.init := by
            rw [← hres v hv]
            exact hps
          have hpsi : ps = ProblemStatus.init := List.eq_of_mem_replicate this
          subst hpsi
          exact timeOK_init
        · rw [hcompold v hv] at hpen₂
          show v.penalty_time ≤ Team.computePenalty _
          rw [hcompnew v hv]
          exact hpen₂
      · intro hns'
        exact absurd hns' (by simp)
    · intro nm u hu
      rw [lookupTeam_map (fun t => { t with problems := resizeProblems t.problems p })
        (fun t => rfl), hu]
      refine ⟨_, rfl, le_refl _, ?_⟩
      have hmem := lookupTeam_mem hu
      rw [hcompold u hmem, hcompnew u hmem]

/-- SUBMIT with a non-negative timestamp keeps the state well-formed and
never lowers any penalty. -/
theorem submit_wfMono (m : ICPCManagement) (c : Char) (n s : String)
    (time : Int) (htime : 0 ≤ time) (hwf : m.WFpen) :
    (m.submit c n s time).1.WFpen ∧
      TeamsMono m.team_list (m.submit c n s time).1.team_list := by
  unfold ICPCManagement.submit
  split
  · exact ⟨hwf, teamsMono_refl _⟩
  · next hcond =>
    split
    · exact ⟨hwf, teamsMono_refl _⟩
    · dsimp only
      split
      · exact ⟨hwf, teamsMono_refl _⟩
      · have hs : m.competition_started = true := by
          cases hb : m.competition_started with
          | true => rfl
          | false => exact absurd (Or.inl (by simp [hb])) hcond
        constructor
        · constructor
          · intro u hu
            rcases mem_updateFirstTeam hu with h | ⟨v, hv, rfl⟩
            · exact hwf.1 u h
            · obtain ⟨hok, hle⟩ := submitTeam_wf m.is_frozen c s time
                ((c.toNat : Int) - 65).toNat htime v (hwf.1 v hv).1
              refine ⟨hok, ?_, ?_⟩
              · show (0 : Int) ≤ v.penalty_time
                exact (hwf.1 v hv).2.1
              · show v.penalty_time ≤ _
                exact le_trans (hwf.1 v hv).2.2 hle
          · intro hns
            exact absurd hns (by simp [hs])
        · intro nm u hu
          dsimp only
          rw [lookupTeam_update (fun t =>
            { t with
                problems := t.problems.set ((c.toNat : Int) - 65).toNat
                  (submitStatus m.is_frozen s time
                    (t.problems.getD ((c.toNat : Int) - 65).toNat ProblemStatus.init))
                submissions := t.submissions ++ [SubmissionRecord.mk c s time] })
            (fun v => rfl)]
          by_cases hn : n = nm
          · subst hn
            rw [if_pos rfl, hu]
            obtain ⟨_, hle⟩ := submitTeam_wf m.is_frozen c s time
              ((c.toNat : Int) - 65).toNat htime u (hwf.1 u (lookupTeam_mem hu)).1
            exact ⟨_, rfl, le_refl _, hle⟩
          · rw [if_neg hn]
            exact ⟨u, hu, le_refl _, le_refl _⟩

/-- FREEZE keeps the state well-formed and never lowers any penalty. -/
theorem freeze_wfMono (m : ICPCManagement) (hwf : m.WFpen) :
    (m.freeze_scoreboard).1.WFpen ∧
      TeamsMono m.team_list (m.freeze_scoreboard).1.team_list := by
  unfold ICPCManagement.freeze_scoreboard
  split
  · exact ⟨hwf, teamsMono_refl _⟩
  · split
    · exact ⟨hwf, teamsMono_refl _⟩
    · exact flush_wfMono { m with is_frozen := true } ⟨hwf.1, hwf.2⟩

/-- SCROLL keeps the state well-formed and never lowers any penalty. -/
theorem scroll_wfMono (m : ICPCManagement) (hwf : m.WFpen) :
    (m.scroll_scoreboard).1.WFpen ∧
      TeamsMono m.team_list (m.scroll_scoreboard).1.team_list := by
  unfold ICPCManagement.scroll_scoreboard
  split
  · exact ⟨hwf, teamsMono_refl _⟩
  · next hcond =>
    split
    · exact ⟨hwf, teamsMono_refl _⟩
    · have hs : m.competition_started = true := by
        cases hb : m.competition_started with
        | true => rfl
        | false => exact absurd (Or.inl (by simp [hb])) hcond
      obtain ⟨hf₁, hf₂⟩ := flush_wfMono m hwf
      obtain ⟨hl₁, hl₂⟩ := scrollLoop_wf
        (frozenTotal (m.flush_scoreboard).1.team_list + 1)
        (m.flush_scoreboard).1.team_list
        ((sortTeams (m.flush_scoreboard).1.team_list).map (fun t => t.name))
        (m.flush_scoreboard).1.problem_count hf₁.1
      refine ⟨⟨hl₁, ?_⟩, teamsMono_trans hf₂ hl₂⟩
      intro hns
      have hfs : (m.flush_scoreboard).1.competition_started = true := by
        unfold ICPCManagement.flush_scoreboard
        split
        · exact hs
        · exact hs
      exact absurd hns (by simp [hfs])

/-- C6: assuming non-negative submission timestamps, every operation keeps
each team's stored `penalty_time` non-negative and never lowers it, and
never lowers the recomputed penalty either (the stored value changes only
at recomputations, which add the `20*wrong_before + solved_time` terms of
newly counted solved problems). -/
theorem C6_penalty_nonneg_monotone (op : Op) (m : ICPCManagement)
    (hwf : m.WFpen) (hop : op.timesNonneg) :
    (step op m).1.WFpen ∧
      (∀ t ∈ (step op m).1.team_list, 0 ≤ t.penalty_time) ∧
      TeamsMono m.team_list (step op m).1.team_list := by
  have main : (step op m).1.WFpen ∧
      TeamsMono m.team_list (step op m).1.team_list := by
    cases op with
    | addteam n => exact addteam_wfMono m n hwf
    | start d p => exact start_wfMono m d p hwf
    | submit c t s time => exact submit_wfMono m c t s time hop hwf
    | flush => exact flush_wfMono m hwf
    | freeze => exact freeze_wfMono m hwf
    | scroll => exact scroll_wfMono m hwf
    | queryRanking t =>
      simp only [step]
      unfold ICPCManagement.query_ranking
      split
      · exact ⟨hwf, teamsMono_refl _⟩
      · exact ⟨hwf, teamsMono_refl _⟩
    | querySubmission t p s =>
      simp only [step]
      unfold ICPCManagement.query_submission
      split
      · exact ⟨hwf, teamsMono_refl _⟩
      · exact ⟨hwf, teamsMono_refl _⟩
    | endComp =>
      simp only [step]
      unfold ICPCManagement.end_competition
      split
      · exact ⟨hwf, teamsMono_refl _⟩
      · exact ⟨⟨hwf.1, fun hns => hwf.2 hns⟩, teamsMono_refl _⟩
  refine ⟨main.1, ?_, main.2⟩
  intro t ht
  exact (main.1.1 t ht).2.1

/-- A concrete well-formed team: one wrong attempt, nothing solved. -/
def c6Team : Team :=
  ⟨"X", [⟨1, false, -1, 0, false, -1⟩], [⟨'A', "Wrong_Answer", 10⟩], 0, 0⟩

/-- A concrete well-formed mid-contest state holding `c6Team`. -/
def c6State : ICPCManagement :=
  { team_list := [c6Team], competition_started := true, competition_ended := false,
    duration_time := 100, problem_count := 1, is_frozen := false,
    freeze_time := -1, scoreboard_flushed := false, last_flushed_ranking := [] }

/-- Witness for C6: an accepted submission at time 30 keeps the state
well-formed and the penalties monotone. -/
theorem C6_witness :
    (step (Op.submit 'A' "X" "Accepted" 30) c6State).1.WFpen ∧
      (∀ t ∈ (step (Op.submit 'A' "X" "Accepted" 30) c6State).1.team_list,
        0 ≤ t.penalty_time) ∧
      TeamsMono c6State.team_list
        (step (Op.submit 'A' "X" "Accepted" 30) c6State).1.team_list :=
  C6_penalty_nonneg_monotone (Op.submit 'A' "X" "Accepted" 30) c6State
    (by unfold ICPCManagement.WFpen teamsWF Team.timesOK Team.penOK
          ProblemStatus.timeOK
        decide)
    (by exact (by decide : (0 : Int) ≤ 30))
